import Mathlib

/-!
# Verification of the Bangkok rail spatial-accessibility analysis

Shallow embedding of `spatial_analysis.py` and proofs about its core
algorithms: the degree→km projection constants, the circular-buffer
polygon generator, the grid-based coverage estimator, the branch-aware
gap detector (haversine), the isolation ("transit desert") scan, and the
monotone-chain convex hull.

Modeling conventions:
* Geographic coordinates and all grid arithmetic are embedded over `ℚ`
  (the source computes with IEEE doubles; the embedding idealizes them
  as exact rationals).  Quantities produced by transcendental functions
  (`math.sin`, `math.cos`, `math.sqrt`, `math.atan2`) are embedded over
  `ℝ`.
* Python strings are embedded as `List Char`.
* A Python expression that raises (`min` of an empty sequence, indexing
  an empty list) is embedded as an `Option`-valued function returning
  `none` in exactly that case.
* `list.sort(key=..., reverse=True)` is Python's stable descending
  sort; it is embedded as `List.insertionSort` with the relation
  "key of the left argument is ≥ key of the right argument", which is
  the stable descending sort of a list.
-/

namespace SpatialAnalysis

/-- A station record as loaded from the CSV.  Fields that no analyzed
algorithm reads (Thai name, line color, service name) are omitted. -/
structure Station where
  stationId : List Char
  nameEng : List Char
  lat : ℚ
  lng : ℚ
  lineNameEng : List Char
deriving DecidableEq, Repr

/-! ## Projection constants (source lines 46-51) -/

/-- `KM_PER_DEG_LAT = 110.574`. -/
def KM_PER_DEG_LAT : ℚ := 110.574

/-- `KM_PER_DEG_LNG = 107.551`, with the source comment
`cos(13.7°) * 111.320`. -/
def KM_PER_DEG_LNG : ℚ := 107.551

/-- `BUFFER_KM = 1.0`. -/
def BUFFER_KM : ℚ := 1.0

/-- `GAP_THRESHOLD_KM = 5.0`. -/
def GAP_THRESHOLD_KM : ℚ := 5.0

/-- `CELL_SIZE_KM = 0.1`. -/
def CELL_SIZE_KM : ℚ := 0.1

/-! ## Coverage estimator (source lines 132-167)

The bounding box is computed with Python's `min`/`max` over the lists of
latitudes and longitudes; on an empty station list `min([])` raises a
`ValueError`, so the bounding-box computation is `Option`-valued and
returns `none` exactly for the empty list. -/

/-- The expanded bounding box of all station positions. -/
structure BBox where
  min_lat : ℚ
  max_lat : ℚ
  min_lng : ℚ
  max_lng : ℚ
deriving DecidableEq, Repr

/-- `min_lat/max_lat/min_lng/max_lng` of source lines 135-138; `none`
when the station list is empty (where the source raises). -/
def bbox : List Station → Option BBox
  | [] => none
  | s :: rest =>
    some { min_lat := (rest.map Station.lat).foldl min s.lat - BUFFER_KM / KM_PER_DEG_LAT
           max_lat := (rest.map Station.lat).foldl max s.lat + BUFFER_KM / KM_PER_DEG_LAT
           min_lng := (rest.map Station.lng).foldl min s.lng - BUFFER_KM / KM_PER_DEG_LNG
           max_lng := (rest.map Station.lng).foldl max s.lng + BUFFER_KM / KM_PER_DEG_LNG }

/-- `n_rows = int(math.ceil((max_lat - min_lat) * KM_PER_DEG_LAT / CELL_SIZE_KM))`. -/
def nRows (b : BBox) : ℕ := (Int.ceil ((b.max_lat - b.min_lat) * KM_PER_DEG_LAT / CELL_SIZE_KM)).toNat

/-- `n_cols = int(math.ceil((max_lng - min_lng) * KM_PER_DEG_LNG / CELL_SIZE_KM))`. -/
def nCols (b : BBox) : ℕ := (Int.ceil ((b.max_lng - b.min_lng) * KM_PER_DEG_LNG / CELL_SIZE_KM)).toNat

/-- Station positions in km-space relative to the bbox origin
(`stations_km`, source lines 150-154); pairs are `(y, x)` as in the
source's `(sy, sx)`. -/
def stationsKm (b : BBox) (stations : List Station) : List (ℚ × ℚ) :=
  stations.map fun s => ((s.lat - b.min_lat) * KM_PER_DEG_LAT, (s.lng - b.min_lng) * KM_PER_DEG_LNG)

/-- The center of grid cell `(r, c)` in km-space: the source's
`y = r * CELL_SIZE_KM + CELL_SIZE_KM / 2` and likewise `x`. -/
def cellCenter (r c : ℕ) : ℚ × ℚ :=
  ((r : ℚ) * CELL_SIZE_KM + CELL_SIZE_KM / 2, (c : ℚ) * CELL_SIZE_KM + CELL_SIZE_KM / 2)

/-- The per-cell disk test of source line 162:
`(x - sx) ** 2 + (y - sy) ** 2 <= BUFFER_KM ** 2` for some station. -/
def cellCovered (skm : List (ℚ × ℚ)) (r c : ℕ) : Bool :=
  skm.any fun p =>
    ((cellCenter r c).2 - p.2) ^ 2 + ((cellCenter r c).1 - p.1) ^ 2 ≤ BUFFER_KM ^ 2

/-- `covered_cells`: the number of grid cells whose center lies in at
least one station's disk (source lines 156-164). -/
def coveredCells (b : BBox) (skm : List (ℚ × ℚ)) : ℕ :=
  ((List.range (nRows b)).map fun r => ((List.range (nCols b)).filter fun c => cellCovered skm r c).length).sum

/-- The covered-cell count of the whole coverage estimation; `none` when
the station list is empty (the source raises in `min`). -/
def coverageOpt (stations : List Station) : Option ℕ :=
  (bbox stations).map fun b => coveredCells b (stationsKm b stations)

/-- `total_coverage_sqkm = covered_cells * cell_area` (source lines 166-167). -/
def totalCoverageSqkm (stations : List Station) : Option ℚ :=
  (coverageOpt stations).map fun n => (n : ℚ) * CELL_SIZE_KM ^ 2

/-! ## Branch key extraction (source lines 190-193)

`re.match(r"([A-Z]+)", station["stationId"])` anchors at the start of the
identifier, so it succeeds exactly when the identifier starts with an
ASCII uppercase letter, and then captures the maximal leading run of
uppercase letters; on failure the full identifier is returned. -/

/-- The character class `[A-Z]` of the branch-prefix regex. -/
def isUpperAZ (c : Char) : Bool := decide ('A' ≤ c ∧ c ≤ 'Z')

/-- `branch_key`: the leading maximal run of uppercase letters of the
identifier when it is nonempty, otherwise the full identifier. -/
def branch_key (stationId : List Char) : List Char :=
  let m := stationId.takeWhile isUpperAZ
  if m = [] then stationId else m

/-- Branch grouping key `(s["lineNameEng"], branch_key(s))` (source line 198). -/
def stationKey (s : Station) : List Char × List Char := (s.lineNameEng, branch_key s.stationId)

/-- The keys of `line_branch_groups` in first-appearance order
(the insertion order of the `OrderedDict`). -/
def groupKeys (stations : List Station) : List (List Char × List Char) :=
  stations.foldl (fun ks s => if stationKey s ∈ ks then ks else ks ++ [stationKey s]) []

/-- `line_branch_groups` (source lines 196-199): for each key in
first-appearance order, the stations with that key in input order. -/
def lineBranchGroups (stations : List Station) : List ((List Char × List Char) × List Station) :=
  (groupKeys stations).map fun k => (k, stations.filter fun s => stationKey s = k)

/-- Stations witnessing that the covered-cell count is not monotone:
two stations 1.6 km apart on one meridian, plus a third 0.01 km south of
the lower one (which shifts the grid origin by half a cell). -/
def ceStA : Station := ⟨['A'], ['A'], 13, 100, ['G']⟩

/-- Second station of the non-monotonicity configuration (1.6 km north
of `ceStA`, same longitude). -/
def ceStB : Station := ⟨['B'], ['B'], 13 + 800 / 55287, 100, ['G']⟩

/-- The added station of the non-monotonicity configuration (0.01 km
south of `ceStA`, same longitude). -/
def ceStC : Station := ⟨['C'], ['C'], 13 - 5 / 55287, 100, ['G']⟩

/-! ## Convex hull (source lines 301-326)

Andrew's monotone chain.  `sorted(set(points))` is the strictly
increasing (lexicographic) enumeration of the distinct points; the two
chain loops are embedded as a fold whose accumulator is the Python list
reversed (head = `lower[-1]`). -/

/-- Lexicographic (Python tuple) strict order on points. -/
def pLt (p q : ℚ × ℚ) : Prop := p.1 < q.1 ∨ (p.1 = q.1 ∧ p.2 < q.2)

/-- Lexicographic (Python tuple) order on points. -/
def pLe (p q : ℚ × ℚ) : Prop := p.1 < q.1 ∨ (p.1 = q.1 ∧ p.2 ≤ q.2)

instance : DecidableRel pLt := fun p q => by unfold pLt; infer_instance

instance : DecidableRel pLe := fun p q => by unfold pLe; infer_instance

/-- `sorted(set(points))`. -/
def sortedDedup (pts : List (ℚ × ℚ)) : List (ℚ × ℚ) := List.insertionSort pLe pts.dedup

/-- `cross(o, a, b)` (source lines 320-321). -/
def cross (o a b : ℚ × ℚ) : ℚ :=
  (a.1 - o.1) * (b.2 - o.2) - (a.2 - o.2) * (b.1 - o.1)

/-- One iteration of a chain loop: pop while the last two stack points
and the new point do not make a strict left turn, then append.  The
stack is the Python list reversed (its head is `lower[-1]`). -/
def push (p : ℚ × ℚ) : List (ℚ × ℚ) → List (ℚ × ℚ)
  | b :: a :: t => if cross a b p ≤ 0 then push p (a :: t) else p :: b :: a :: t
  | s => p :: s

/-- A full chain loop over a point list; the result is the Python list
reversed (head = `lower[-1]`). -/
def chainRev (pts : List (ℚ × ℚ)) : List (ℚ × ℚ) :=
  pts.foldl (fun s p => push p s) []

/-- A full chain loop over a point list, returned in Python order
(first appended first). -/
def chain (pts : List (ℚ × ℚ)) : List (ℚ × ℚ) :=
  (chainRev pts).reverse

/-- `convex_hull(points)` (source lines 301-317): 0 or 1 distinct points
are returned as-is; otherwise `lower[:-1] + upper[:-1]`. -/
def convex_hull (pts : List (ℚ × ℚ)) : List (ℚ × ℚ) :=
  let points := sortedDedup pts
  if points.length ≤ 1 then points
  else (chain points).dropLast ++ (chain points.reverse).dropLast

/-- The module-level ring closure (source lines 324-326):
`hull_coords.append(hull_coords[0])`.  Indexing `[0]` on an empty hull
raises `IndexError`, embedded as `none`. -/
def hullRingOpt (pts : List (ℚ × ℚ)) : Option (List (ℚ × ℚ)) :=
  match convex_hull pts with
  | [] => none
  | x :: t => some ((x :: t) ++ [x])

/-- Strict convexity of a chain stack (head = most recent point):
every consecutive triple, read chronologically, is a strict left turn. -/
def RConvex : List (ℚ × ℚ) → Prop
  | c :: b :: a :: t => 0 < cross a b c ∧ RConvex (b :: a :: t)
  | _ => True

/-- `q` lies on or above every edge of the chain stack (edges read
chronologically: for adjacent stack entries `b :: a :: _` the edge goes
from `a` to `b`). -/
def RAbove (q : ℚ × ℚ) : List (ℚ × ℚ) → Prop
  | b :: a :: t => 0 ≤ cross a b q ∧ RAbove q (a :: t)
  | _ => True

/-- The pop loop of one chain iteration. -/
def popWhile (p : ℚ × ℚ) : List (ℚ × ℚ) → List (ℚ × ℚ)
  | b :: a :: t => if cross a b p ≤ 0 then popWhile p (a :: t) else b :: a :: t
  | s => s

/-- Invariant of the chain fold: `done` is the processed prefix (in
input order) and `R` the current stack (head = most recently kept
point).  The stack is nonempty, runs from the last processed point down
to the first, is a reversed sublist of the prefix, is strictly convex,
and supports every processed point from below. -/
structure SInv (done R : List (ℚ × ℚ)) : Prop where
  ne : R ≠ []
  top : R.head? = done.getLast?
  bot : R.getLast? = done.head?
  sub : R.reverse.Sublist done
  conv : RConvex R
  supp : ∀ q ∈ done, RAbove q R

/-- The final stack of a chain run over a strictly sorted input: it
runs from the maximal input point down to the minimal one, is a
reversed sublist of the input, is strictly convex, and supports every
input point. -/
def GoodStack (S R : List (ℚ × ℚ)) : Prop :=
  R ≠ [] ∧ R.head? = S.getLast? ∧ R.getLast? = S.head? ∧ R.reverse.Sublist S ∧
    RConvex R ∧ ∀ q ∈ S, RAbove q R

/-- Point reflection through the origin.  Cross products and the chain
loop are invariant under it, and it reverses the lexicographic order,
which turns the upper-chain run (over the reversed input) into a
lower-chain run over a sorted input. -/
def negP (p : ℚ × ℚ) : ℚ × ℚ := (-p.1, -p.2)

/-! ## Real-valued helpers (`math.radians`, `round`, `math.atan2`) -/

/-- Degrees to radians, `math.radians(d) = d * pi / 180`. -/
noncomputable def radians (d : ℝ) : ℝ := d * Real.pi / 180

/-- Python's `round(x, n)`: round half to even at `n` decimal digits,
idealized over `ℝ`. -/
noncomputable def pyRound (n : ℕ) (x : ℝ) : ℝ :=
  (if x * 10 ^ n - ⌊x * 10 ^ n⌋ < 1 / 2 then (⌊x * 10 ^ n⌋ : ℝ)
   else if 1 / 2 < x * 10 ^ n - ⌊x * 10 ^ n⌋ then (⌊x * 10 ^ n⌋ : ℝ) + 1
   else if ⌊x * 10 ^ n⌋ % 2 = 0 then (⌊x * 10 ^ n⌋ : ℝ) else (⌊x * 10 ^ n⌋ : ℝ) + 1) / 10 ^ n

/-- The function `math.atan2(y, x)` (full quadrant-aware arctangent). -/
noncomputable def atan2 (y x : ℝ) : ℝ :=
  if 0 < x then Real.arctan (y / x)
  else if x < 0 then
    (if 0 ≤ y then Real.arctan (y / x) + Real.pi else Real.arctan (y / x) - Real.pi)
  else if 0 < y then Real.pi / 2
  else if y < 0 then -(Real.pi / 2)
  else 0

/-! ## `haversine_km` (source lines 54-62) and the gap scan (204-234) -/

/-- `haversine_km(lat1, lng1, lat2, lng2)`: great-circle distance on a
sphere of radius 6371 km. -/
noncomputable def haversine_km (lat1 lng1 lat2 lng2 : ℝ) : ℝ :=
  let dlat := radians (lat2 - lat1)
  let dlng := radians (lng2 - lng1)
  let a := Real.sin (dlat / 2) ^ 2 +
    Real.cos (radians lat1) * Real.cos (radians lat2) * Real.sin (dlng / 2) ^ 2
  6371.0 * 2 * atan2 (Real.sqrt a) (Real.sqrt (1 - a))

/-- The haversine distance between two stations' true geographic
coordinates (`dist` of source line 208). -/
noncomputable def stationDist (a b : Station) : ℝ :=
  haversine_km (a.lat : ℝ) (a.lng : ℝ) (b.lat : ℝ) (b.lng : ℝ)

/-- One entry of `gaps_info` (source lines 210-215) together with the
`LineString` geometry of the matching `gap_features` entry (lines
217-234): both are appended under the same `dist >= GAP_THRESHOLD_KM`
test with the same data. -/
structure GapRecord where
  line : List Char
  fromName : List Char
  toName : List Char
  distance_km : ℝ
  segment : (ℝ × ℝ) × (ℝ × ℝ)

/-- The f-string `f"{line_name} ({branch}-branch)"`. -/
def gapLineLabel (lineName branch : List Char) : List Char :=
  lineName ++ " (".toList ++ branch ++ "-branch)".toList

/-- The record emitted for a qualifying consecutive pair `(a, b)`:
station names, the distance rounded to 2 digits, and the segment
`[[a.lng, a.lat], [b.lng, b.lat]]`. -/
noncomputable def mkGap (lineName branch : List Char) (a b : Station) : GapRecord :=
  ⟨gapLineLabel lineName branch, a.nameEng, b.nameEng, pyRound 2 (stationDist a b),
    (((a.lng : ℝ), (a.lat : ℝ)), ((b.lng : ℝ), (b.lat : ℝ)))⟩

/-- One iteration `i` of the gap loop over a branch group's station
list: `a = l[i]`, `b = l[i+1]`, emit when `dist >= GAP_THRESHOLD_KM`. -/
noncomputable def gapAt (lineName branch : List Char) (l : List Station) (i : ℕ) :
    Option GapRecord :=
  l[i]?.bind fun a => l[i + 1]?.bind fun b =>
    if (GAP_THRESHOLD_KM : ℝ) ≤ stationDist a b then some (mkGap lineName branch a b)
    else none

/-- The gap scan over one branch group (`for i in range(len(line_stations) - 1)`,
source lines 205-234). -/
noncomputable def gapsFor (lineName branch : List Char) (l : List Station) :
    List GapRecord :=
  (List.range (l.length - 1)).filterMap (gapAt lineName branch l)

/-- The whole `gaps_info` list: the gap scan run over every branch group
in first-appearance order. -/
noncomputable def gaps_info (stations : List Station) : List GapRecord :=
  (lineBranchGroups stations).flatMap fun g => gapsFor g.1.1 g.1.2 g.2

/-! ## `circle_polygon` (source lines 65-76) -/

/-- `circle_polygon(lat, lng, radius_km, n_points)`: `n_points + 1`
vertices `[lng + d_lng*cos(angle), lat + d_lat*sin(angle)]` (each
coordinate rounded to 8 digits) at angles `2*pi*i/n_points`. -/
noncomputable def circle_polygon (lat lng radius_km : ℝ) (n_points : ℕ) : List (ℝ × ℝ) :=
  (List.range (n_points + 1)).map fun i : ℕ =>
    (pyRound 8 (lng + radius_km / (KM_PER_DEG_LNG : ℝ) *
       Real.cos (2 * Real.pi * (i : ℝ) / (n_points : ℝ))),
     pyRound 8 (lat + radius_km / (KM_PER_DEG_LAT : ℝ) *
       Real.sin (2 * Real.pi * (i : ℝ) / (n_points : ℝ))))

/-! ## The projection constant against its documented formula (C9) -/

/-- The spec's (and the constant's own comment's) formula for the
longitude scale: the equatorial degree length 111.320 km times the
cosine of the reference latitude 13.7°. -/
noncomputable def specKmPerDegLng : ℝ := 111.320 * Real.cos (radians 13.7)

/-! ## The isolation ("transit desert") scan (source lines 239-277) -/

/-- One entry of `desert_center_cells` (source lines 254-257): the cell
center in geographic coordinates and the rounded nearest-station
distance. -/
structure DesertCell where
  lat : ℚ
  lng : ℚ
  nearest_km : ℝ

/-- `range(0, n, 5)`: the indices below `n` in steps of 5 (the scan
samples every fifth 100 m cell, i.e. every 500 m). -/
def range5 (n : ℕ) : List ℕ := (List.range n).filter fun r => r % 5 == 0

/-- The planar km-space distance from a sample point to one station
(source line 252, `(sy, sx)` pairs). -/
noncomputable def sampleDist (y x : ℚ) (s : ℚ × ℚ) : ℝ :=
  Real.sqrt (((x - s.2) ^ 2 + (y - s.1) ^ 2 : ℚ) : ℝ)

/-- `min(...)` of source lines 251-254 over the nonempty station list
`k0 :: ks`, as Python's head-seeded fold. -/
noncomputable def minSqrtDist (k0 : ℚ × ℚ) (ks : List (ℚ × ℚ)) (y x : ℚ) : ℝ :=
  (ks.map (sampleDist y x)).foldl min (sampleDist y x k0)

/-- `2.0`, the radius of the rendered desert-zone disk (source line 265). -/
def DESERT_ZONE_RADIUS_KM : ℚ := 2.0

/-- The desert-candidate list for a bounding box and a nonempty
km-space station list: every fifth row and column of the coverage grid,
keeping cells whose minimum distance to a station is ≥ the threshold
(source lines 243-257). -/
noncomputable def desertCellsFrom (b : BBox) (k0 : ℚ × ℚ) (ks : List (ℚ × ℚ)) :
    List DesertCell :=
  (range5 (nRows b)).flatMap fun r =>
    (range5 (nCols b)).filterMap fun c =>
      if (GAP_THRESHOLD_KM : ℝ) ≤ minSqrtDist k0 ks (cellCenter r c).1 (cellCenter r c).2 then
        some ⟨b.min_lat + (cellCenter r c).1 / KM_PER_DEG_LAT,
              b.min_lng + (cellCenter r c).2 / KM_PER_DEG_LNG,
              pyRound 2 (minSqrtDist k0 ks (cellCenter r c).1 (cellCenter r c).2)⟩
      else none

/-- `desert_center_cells`: `none` when the station list is empty (the
bounding box `min` or the per-cell `min` raises). -/
noncomputable def desertCells (S : List Station) : Option (List DesertCell) :=
  (bbox S).bind fun b =>
    match stationsKm b S with
    | [] => none
    | k0 :: ks => some (desertCellsFrom b k0 ks)

/-- The stable descending sort by `nearest_km`
(`desert_center_cells.sort(key=lambda d: d["nearest_km"], reverse=True)`,
source line 259). -/
noncomputable def desertRanked (l : List DesertCell) : List DesertCell :=
  List.insertionSort (fun a b : DesertCell => b.nearest_km ≤ a.nearest_km) l

/-- `desert_zones = desert_center_cells[:10]` after the sort (source
line 260). -/
noncomputable def desertZones (S : List Station) : Option (List DesertCell) :=
  (desertCells S).map fun cands => (desertRanked cands).take 10

/-- The rendered isolation-indicator disk of a desert zone:
`circle_polygon(dz["lat"], dz["lng"], 2.0, n_points=48)` (source line 265). -/
noncomputable def desertZoneRing (z : DesertCell) : List (ℝ × ℝ) :=
  circle_polygon (z.lat : ℝ) (z.lng : ℝ) ((DESERT_ZONE_RADIUS_KM : ℚ) : ℝ) 48

/-- The filter that keeps the candidates with one given sort key. -/
noncomputable def keyFilter (v : ℝ) (l : List DesertCell) : List DesertCell :=
  l.filter fun z => decide (z.nearest_km = v)

/-! ## Theorems -/

/-- C1, counterexample.  The claim says the empty station list yields a
well-formed zero-coverage result "without raising any error", the
bounding box being guarded to collapse to a single point.  In the code
there is no guard: `min(all_lats)` raises `ValueError` on an empty
sequence, which the embedding models as `none` — no result is
produced. -/
theorem coverageOpt_nil_eq_none : coverageOpt ([] : List Station) = none := rfl

/-- C1, amended: for an empty station list the bounding-box computation
is not guarded (`min` of an empty sequence raises, embedded as `none`),
so the coverage estimation produces no result at all; for every
nonempty station list it always produces a well-formed covered-cell
count (there is indeed no division by zero anywhere). -/
theorem coverage_empty_raises_nonempty_total :
    bbox ([] : List Station) = none ∧
      ∀ (s : Station) (rest : List Station), ∃ n : ℕ, coverageOpt (s :: rest) = some n := by
  exact ⟨rfl, fun s rest => ⟨_, rfl⟩⟩

unseal Rat.add Rat.mul Rat.sub Rat.inv Rat.ofScientific in
/-- C2, counterexample.  Covered-cell count is not monotone in the
station set: starting from stations `ceStA, ceStB` (600 covered cells),
adding station `ceStC` — 0.01 km south of the southernmost station —
shifts the grid origin by half a cell and the count drops to 598. -/
theorem coverage_not_monotone :
    coverageOpt [ceStA, ceStB] = some 600 ∧
      coverageOpt ([ceStA, ceStB] ++ [ceStC]) = some 598 ∧ (598 : ℕ) < 600 := by
  refine ⟨by decide, by decide, by decide⟩

/-- C2, amended: the covered-cell count is monotone under adding a
station whenever the added station leaves the expanded bounding box
unchanged (same grid, and each cell's disk test only gains candidate
stations); in general adding a station can shift the grid origin and
decrease the count. -/
theorem coverage_monotone_of_bbox_eq (S : List Station) (s : Station) (b : BBox)
    (h1 : bbox S = some b) (h2 : bbox (S ++ [s]) = some b) :
    (coverageOpt S).getD 0 ≤ (coverageOpt (S ++ [s])).getD 0 := by
  have hs : stationsKm b (S ++ [s]) = stationsKm b S ++ stationsKm b [s] := by
    simp [stationsKm]
  have hcell : ∀ r c, cellCovered (stationsKm b S) r c = true →
      cellCovered (stationsKm b (S ++ [s])) r c = true := by
    intro r c h
    rw [hs]
    simp only [cellCovered, List.any_append, Bool.or_eq_true]
    exact Or.inl h
  have hcount : coveredCells b (stationsKm b S) ≤ coveredCells b (stationsKm b (S ++ [s])) := by
    unfold coveredCells
    refine List.sum_le_sum ?_
    intro r _
    rw [← List.countP_eq_length_filter, ← List.countP_eq_length_filter]
    exact List.countP_mono_left fun c _ h => hcell r c h
  simpa [coverageOpt, h1, h2] using hcount

unseal Rat.add Rat.mul Rat.sub Rat.inv Rat.ofScientific in
/-- C2, amended, witness: a duplicated station leaves the bounding box
unchanged, and the covered-cell count does not decrease. -/
theorem coverage_monotone_of_bbox_eq_witness :
    (coverageOpt [ceStA]).getD 0 ≤ (coverageOpt ([ceStA] ++ [ceStA])).getD 0 := by
  refine coverage_monotone_of_bbox_eq [ceStA] ceStA _ rfl (by decide)

/-- A list all of whose characters lie in the regex class is a prefix of
the `takeWhile` run (maximality of the captured run). -/
theorem prefix_takeWhile_of_all : ∀ (q id : List Char), q <+: id →
    (∀ c ∈ q, isUpperAZ c = true) → q <+: id.takeWhile isUpperAZ := by
  intro q
  induction q with
  | nil => intro id _ _; exact List.nil_prefix
  | cons c q ih =>
    intro id hpre hall
    obtain ⟨t, ht⟩ := hpre
    subst ht
    rw [List.cons_append, List.takeWhile_cons_of_pos (hall c (by simp))]
    exact (List.cons_prefix_cons).2 ⟨rfl, ih (q ++ t) ⟨t, rfl⟩ fun d hd => hall d (by simp [hd])⟩

/-- C4, counterexample.  The claim says the branch key "is never the
empty string"; but for the empty identifier the regex does not match and
the code returns the identifier itself, i.e. the empty string. -/
theorem branch_key_nil : branch_key [] = [] := rfl

/-- C4, amended: the branch key of an identifier is the leading maximal
run of uppercase letters when that run is nonempty (it is a prefix, all
its characters are uppercase, and any all-uppercase prefix of the
identifier is a prefix of it), and the full identifier when no such run
exists; it is a pure total function, and it is nonempty whenever the
identifier is nonempty (only the empty identifier yields an empty key). -/
theorem branch_key_spec (id : List Char) :
    (id.takeWhile isUpperAZ) <+: id ∧
      (∀ c ∈ id.takeWhile isUpperAZ, isUpperAZ c = true) ∧
      (∀ q : List Char, q <+: id → (∀ c ∈ q, isUpperAZ c = true) →
        q <+: id.takeWhile isUpperAZ) ∧
      (id.takeWhile isUpperAZ ≠ [] → branch_key id = id.takeWhile isUpperAZ) ∧
      (id.takeWhile isUpperAZ = [] → branch_key id = id) ∧
      (id ≠ [] → branch_key id ≠ []) := by
  refine ⟨List.takeWhile_prefix _, fun c hc => List.mem_takeWhile_imp hc,
    fun q hq hall => prefix_takeWhile_of_all q id hq hall, ?_, ?_, ?_⟩
  · intro h; simp only [branch_key, if_neg h]
  · intro h; simp only [branch_key, if_pos h]
  · intro hid
    unfold branch_key
    by_cases h : id.takeWhile isUpperAZ = []
    · show (if id.takeWhile isUpperAZ = [] then id else id.takeWhile isUpperAZ) ≠ []
      rw [if_pos h]; exact hid
    · show (if id.takeWhile isUpperAZ = [] then id else id.takeWhile isUpperAZ) ≠ []
      rw [if_neg h]; exact h

/-- C4 witness: for identifier `BL01` the branch key is the captured
leading run `BL`, and it is nonempty. -/
theorem branch_key_spec_witness :
    branch_key ['B', 'L', '0', '1'] = ['B', 'L', '0', '1'].takeWhile isUpperAZ ∧
      branch_key ['B', 'L', '0', '1'] ≠ [] :=
  ⟨(branch_key_spec ['B', 'L', '0', '1']).2.2.2.1 (by decide),
    (branch_key_spec ['B', 'L', '0', '1']).2.2.2.2.2 (by decide)⟩

/-- C5, counterexample.  The claim says that on 0 or 1 distinct points
the point set is returned unchanged "with no ring closure attempted (no
first-vertex repetition) and no failure".  In the code the module-level
closure `hull_coords.append(hull_coords[0])` is unconditional: one
point produces the degenerate two-vertex ring `[p, p]` (the first
vertex is repeated), and zero points raise `IndexError` (embedded
`none`). -/
theorem hullRing_degenerate_counterexample :
    hullRingOpt [((0 : ℚ), (0 : ℚ))] = some [(0, 0), (0, 0)] ∧
      hullRingOpt ([] : List (ℚ × ℚ)) = none := by
  exact ⟨rfl, rfl⟩

/-- C5, amended: the `convex_hull` function itself returns a 0-or-1
distinct-point set unchanged (sorted and deduplicated), and for a
nonempty hull (in particular for 3 or more hull points) the emitted
ring is the hull closed by repeating the first vertex, so its first and
last vertices coincide; but the module-level ring closure is applied
unconditionally, so one distinct point yields the ring `[p, p]` and an
empty point set fails (`IndexError`, embedded as `none`). -/
theorem convex_hull_degenerate_spec (pts : List (ℚ × ℚ)) :
    ((sortedDedup pts).length ≤ 1 → convex_hull pts = sortedDedup pts) ∧
      (pts = [] → hullRingOpt pts = none) ∧
      (∀ (x : ℚ × ℚ) (t : List (ℚ × ℚ)), convex_hull pts = x :: t →
        hullRingOpt pts = some ((x :: t) ++ [x]) ∧
          ((x :: t) ++ [x]).head? = ((x :: t) ++ [x]).getLast?) := by
  refine ⟨fun h => ?_, fun h => ?_, fun x t h => ?_⟩
  · unfold convex_hull
    simp [h]
  · subst h; rfl
  · refine ⟨by unfold hullRingOpt; rw [h], ?_⟩
    rw [List.getLast?_concat]
    rfl

unseal Rat.add Rat.mul Rat.sub Rat.inv Rat.ofScientific in
/-- C5 witness: a 3-point set in convex position; the emitted ring is
the hull closed by its first vertex, with first = last. -/
theorem convex_hull_degenerate_spec_witness :
    hullRingOpt [((0 : ℚ), (0 : ℚ)), (2, 0), (1, 1)] = some [(0, 0), (2, 0), (1, 1), (0, 0)] ∧
      ([((0 : ℚ), (0 : ℚ)), (2, 0), (1, 1), (0, 0)]).head? =
        ([((0 : ℚ), (0 : ℚ)), (2, 0), (1, 1), (0, 0)]).getLast? := by
  have h := (convex_hull_degenerate_spec [((0 : ℚ), (0 : ℚ)), (2, 0), (1, 1)]).2.2
    (0, 0) [(2, 0), (1, 1)] (by decide)
  exact ⟨h.1, h.2⟩

/-! ## Monotone-chain theory (for the hull idempotence claim)

The chain loop is analyzed through its stack (`chainRev`, the Python
list reversed: head = most recently kept point).  For a strictly
lexicographically sorted input the final stack starts at the maximal
point, ends at the minimal point, is a reversed sublist of the input,
is strictly convex, and supports every input point from below; such a
stack is unique, which yields idempotence of `convex_hull`. -/

/-- Swap of the outer arguments negates the cross product. -/
theorem cross_swap_outer (o a b : ℚ × ℚ) : cross o a b = -(cross b a o) := by
  unfold cross; ring

/-- Swap of the first two arguments negates the cross product. -/
theorem cross_swap_fst (o a b : ℚ × ℚ) : cross o a b = -(cross a o b) := by
  unfold cross; ring

/-- The cross product vanishes when the moving point is the edge target. -/
theorem cross_right_self (o a : ℚ × ℚ) : cross o a a = 0 := by
  unfold cross; ring

/-- The cross product vanishes when the moving point is the edge source. -/
theorem cross_outer_self (o a : ℚ × ℚ) : cross o a o = 0 := by
  unfold cross; ring

/-- Affine exchange identity used to transfer "above an edge" facts
along a shared edge source. -/
theorem cross_template (a b p q : ℚ × ℚ) :
    (b.1 - a.1) * cross a p q = cross a b q * (p.1 - a.1) - cross a b p * (q.1 - a.1) := by
  unfold cross; ring

/-- Affine exchange identity used to transfer "above an edge" facts
along a shared edge target. -/
theorem cross_template2 (x a b p : ℚ × ℚ) :
    (b.1 - a.1) * cross x a p = cross x a b * (p.1 - a.1) - cross a b p * (x.1 - a.1) := by
  unfold cross; ring

theorem pLe_refl (p : ℚ × ℚ) : pLe p p := Or.inr ⟨rfl, le_refl _⟩

theorem pLe_of_pLt {p q : ℚ × ℚ} (h : pLt p q) : pLe p q := by
  rcases h with h | ⟨h1, h2⟩
  · exact Or.inl h
  · exact Or.inr ⟨h1, le_of_lt h2⟩

theorem pLt_irrefl (p : ℚ × ℚ) : ¬ pLt p p := by
  rintro (h | ⟨-, h⟩) <;> exact lt_irrefl _ h

theorem pLt_trans {p q r : ℚ × ℚ} (h1 : pLt p q) (h2 : pLt q r) : pLt p r := by
  rcases h1 with h1 | ⟨e1, h1⟩ <;> rcases h2 with h2 | ⟨e2, h2⟩
  · exact Or.inl (lt_trans h1 h2)
  · exact Or.inl (e2 ▸ h1)
  · exact Or.inl (e1 ▸ h2)
  · exact Or.inr ⟨e1.trans e2, lt_trans h1 h2⟩

theorem pLt_asymm {p q : ℚ × ℚ} (h : pLt p q) : ¬ pLt q p :=
  fun h' => pLt_irrefl p (pLt_trans h h')

theorem pLe_trans {p q r : ℚ × ℚ} (h1 : pLe p q) (h2 : pLe q r) : pLe p r := by
  rcases h1 with h1 | ⟨e1, h1⟩ <;> rcases h2 with h2 | ⟨e2, h2⟩
  · exact Or.inl (lt_trans h1 h2)
  · exact Or.inl (e2 ▸ h1)
  · exact Or.inl (e1 ▸ h2)
  · exact Or.inr ⟨e1.trans e2, le_trans h1 h2⟩

theorem pLe_antisymm {p q : ℚ × ℚ} (h1 : pLe p q) (h2 : pLe q p) : p = q := by
  rcases h1 with h1 | ⟨e1, h1⟩ <;> rcases h2 with h2 | ⟨e2, h2⟩
  · exact absurd h2 (lt_asymm h1)
  · exact absurd h1 (e2 ▸ lt_irrefl _)
  · exact absurd h2 (e1 ▸ lt_irrefl _)
  · exact Prod.ext e1 (le_antisymm h1 h2)

theorem pLe_total (p q : ℚ × ℚ) : pLe p q ∨ pLe q p := by
  rcases lt_trichotomy p.1 q.1 with h | h | h
  · exact Or.inl (Or.inl h)
  · rcases le_total p.2 q.2 with h2 | h2
    · exact Or.inl (Or.inr ⟨h, h2⟩)
    · exact Or.inr (Or.inr ⟨h.symm, h2⟩)
  · exact Or.inr (Or.inl h)

theorem pLt_of_pLe_ne {p q : ℚ × ℚ} (h : pLe p q) (hne : p ≠ q) : pLt p q := by
  rcases h with h | ⟨e, h⟩
  · exact Or.inl h
  · refine Or.inr ⟨e, lt_of_le_of_ne h fun h2 => hne (Prod.ext e h2)⟩

theorem pLt_x_le {p q : ℚ × ℚ} (h : pLt p q) : p.1 ≤ q.1 := by
  rcases h with h | ⟨e, -⟩
  · exact le_of_lt h
  · exact le_of_eq e

theorem pLe_x_le {p q : ℚ × ℚ} (h : pLe p q) : p.1 ≤ q.1 := by
  rcases h with h | ⟨e, -⟩
  · exact le_of_lt h
  · exact le_of_eq e

instance : IsTotal (ℚ × ℚ) pLe := ⟨pLe_total⟩

instance : IsTrans (ℚ × ℚ) pLe := ⟨fun _ _ _ => pLe_trans⟩

theorem RConvex_tail {x : ℚ × ℚ} {R : List (ℚ × ℚ)} (h : RConvex (x :: R)) : RConvex R := by
  match R with
  | [] => trivial
  | [a] => trivial
  | b :: a :: t => exact h.2

theorem RAbove_tail {q x : ℚ × ℚ} {R : List (ℚ × ℚ)} (h : RAbove q (x :: R)) : RAbove q R := by
  match R with
  | [] => trivial
  | a :: t => exact h.2

theorem RConvex_suffix {l R : List (ℚ × ℚ)} (hs : l <:+ R) (h : RConvex R) : RConvex l := by
  induction R with
  | nil => rw [List.suffix_nil.1 hs]; trivial
  | cons x R ih =>
    rcases List.suffix_cons_iff.1 hs with rfl | hs'
    · exact h
    · exact ih hs' (RConvex_tail h)

theorem RAbove_suffix {q : ℚ × ℚ} {l R : List (ℚ × ℚ)} (hs : l <:+ R) (h : RAbove q R) :
    RAbove q l := by
  induction R with
  | nil => rw [List.suffix_nil.1 hs]; trivial
  | cons x R ih =>
    rcases List.suffix_cons_iff.1 hs with rfl | hs'
    · exact h
    · exact ih hs' (RAbove_tail h)

theorem push_eq_popWhile (p : ℚ × ℚ) : ∀ R, push p R = p :: popWhile p R
  | [] => rfl
  | [_] => rfl
  | b :: a :: t => by
    unfold push popWhile
    split
    · exact push_eq_popWhile p (a :: t)
    · rfl

theorem popWhile_suffix (p : ℚ × ℚ) : ∀ R, popWhile p R <:+ R
  | [] => List.suffix_refl _
  | [a] => List.suffix_refl _
  | b :: a :: t => by
    unfold popWhile
    split
    · exact (popWhile_suffix p (a :: t)).trans (List.suffix_cons b _)
    · exact List.suffix_refl _

theorem popWhile_ne_nil (p : ℚ × ℚ) : ∀ {R}, R ≠ [] → popWhile p R ≠ []
  | [], h => absurd rfl h
  | [a], _ => by simp [popWhile]
  | b :: a :: t, _ => by
    unfold popWhile
    split
    · exact popWhile_ne_nil p (by simp)
    · simp

theorem popWhile_stop (p : ℚ × ℚ) :
    ∀ {R b a t}, popWhile p R = b :: a :: t → 0 < cross a b p := by
  intro R
  induction R with
  | nil => intro b a t h; simp [popWhile] at h
  | cons x R ih =>
    intro b a t h
    match R, h with
    | [], h => simp [popWhile] at h
    | a' :: t', h => ?_
    unfold popWhile at h
    split at h
    · exact ih h
    · rename_i hcross
      obtain ⟨rfl, rfl, rfl⟩ : x = b ∧ a' = a ∧ t' = t := by
        injection h with h1 h2; injection h2 with h2 h3; exact ⟨h1, h2, h3⟩
      exact lt_of_not_le hcross

/-- Unfolding equation of `popWhile` on a stack with at least two points. -/
theorem popWhile_cons₂ (p b a : ℚ × ℚ) (t : List (ℚ × ℚ)) :
    popWhile p (b :: a :: t) = if cross a b p ≤ 0 then popWhile p (a :: t) else b :: a :: t := rfl

theorem popWhile_cases (p : ℚ × ℚ) :
    ∀ R, popWhile p R = R ∨
      ∃ b, (b :: popWhile p R) <:+ R ∧
        ∃ a t, popWhile p R = a :: t ∧ cross a b p ≤ 0 := by
  intro R
  induction R with
  | nil => exact Or.inl rfl
  | cons x R ih =>
    match R with
    | [] => exact Or.inl rfl
    | a' :: t' =>
      rw [popWhile_cons₂]
      split
      · rename_i hcross
        right
        rcases ih with he | ⟨b, hs, a, t, he, hc⟩
        · exact ⟨x, by rw [he], a', t', he, hcross⟩
        · exact ⟨b, hs.trans (List.suffix_cons x _), a, t, he, hc⟩
      · exact Or.inl rfl

/-- Geometric step: a point `q` strictly to the right of `a` that is on
or above the edge `a → b` is on or above the edge `a → p` whenever `p`
is on or below the line of `a → b` (the pop condition) and to the right
of `a`. -/
theorem above_new_edge_right {a b p q : ℚ × ℚ}
    (h1 : 0 ≤ cross a b q) (h2 : cross a b p ≤ 0) (h3 : a.1 ≤ p.1) (h4 : a.1 < q.1)
    (h5 : pLt a b) : 0 ≤ cross a p q := by
  obtain ⟨a1, a2⟩ := a; obtain ⟨b1, b2⟩ := b; obtain ⟨p1, p2⟩ := p; obtain ⟨q1, q2⟩ := q
  simp only [cross, pLt] at *
  rcases h5 with hlt | ⟨he, hy⟩
  · nlinarith [mul_nonneg h1 (sub_nonneg.2 h3),
      mul_nonneg (neg_nonneg.2 h2) (sub_nonneg.2 (le_of_lt h4))]
  · subst he
    nlinarith [mul_pos (sub_pos.2 hy) (sub_pos.2 h4)]

/-- Geometric step: a point `q` on or above the edge `u → v` and not to
the right of `v` is on or above the next edge `v → w` whenever the turn
`u → v → w` is strictly left and `w` is to the right of `v`. -/
theorem above_next_edge_left {u v w q : ℚ × ℚ}
    (h1 : 0 ≤ cross u v q) (h2 : 0 < cross u v w) (h3 : q.1 ≤ v.1) (h4 : pLt u v)
    (h5 : v.1 ≤ w.1) : 0 ≤ cross v w q := by
  obtain ⟨u1, u2⟩ := u; obtain ⟨v1, v2⟩ := v; obtain ⟨w1, w2⟩ := w; obtain ⟨q1, q2⟩ := q
  simp only [cross, pLt] at *
  rcases h4 with hlt | ⟨he, hy⟩
  · nlinarith [mul_nonneg h1 (sub_nonneg.2 h5), mul_nonneg (le_of_lt h2) (sub_nonneg.2 h3)]
  · subst he
    nlinarith [mul_nonneg (le_of_lt (sub_pos.2 hy)) (sub_nonneg.2 h5)]

/-- Geometric step used to walk the incoming point down the kept stack:
if the turn `x → a → b` is strictly left and `p` is on or above the
edge `a → b`, then `p` is on or above the deeper edge `x → a`. -/
theorem above_deeper_edge {x a b p : ℚ × ℚ}
    (h1 : 0 < cross x a b) (h2 : 0 ≤ cross a b p) (h3 : x.1 ≤ a.1) (h6 : pLt b p)
    (h7 : pLt a b) : 0 ≤ cross x a p := by
  obtain ⟨x1, x2⟩ := x; obtain ⟨a1, a2⟩ := a; obtain ⟨b1, b2⟩ := b; obtain ⟨p1, p2⟩ := p
  simp only [cross, pLt] at *
  rcases h7 with hlt | ⟨he, hy⟩
  · have hap : a1 ≤ p1 := by
      rcases h6 with hbp | ⟨hbp, -⟩
      · linarith
      · linarith [hbp]
    nlinarith [mul_nonneg (le_of_lt h1) (sub_nonneg.2 hap), mul_nonneg h2 (sub_nonneg.2 h3)]
  · -- vertical edge a→b (a1 = b1, a2 < b2)
    subst he
    rcases h6 with hbp | ⟨hbp, hpy⟩
    · -- then p strictly right of the column, contradicting the support h2
      exfalso
      nlinarith [mul_pos (sub_pos.2 hy) (sub_pos.2 hbp)]
    · -- p in the same column, above b
      subst hbp
      nlinarith [mul_nonneg (sub_nonneg.2 h3) (sub_nonneg.2 (le_of_lt (lt_trans hy hpy)))]

/-- Geometric step for the degenerate bottom-of-stack case: a point in
the same column as (and not below) the stack bottom `s` is on or above
any edge `s → p` going right. -/
theorem above_column {s p q : ℚ × ℚ} (h1 : q.1 = s.1) (h2 : s.2 ≤ q.2) (h3 : s.1 ≤ p.1) :
    0 ≤ cross s p q := by
  obtain ⟨s1, s2⟩ := s; obtain ⟨p1, p2⟩ := p; obtain ⟨q1, q2⟩ := q
  simp only [cross] at *
  subst h1
  nlinarith [mul_nonneg (sub_nonneg.2 h3) (sub_nonneg.2 h2)]

/-- Two distinct convex chains through the same extremes cannot exist:
if `a`, `b`, `m` are collinear with `a` lexicographically before `b`
before `m`, then no strictly convex turn `c → b → m` supports `a` from
below. -/
theorem collinear_contra {a b m c : ℚ × ℚ} (h0 : cross b m a = 0) (h1 : 0 < cross c b m)
    (h2 : 0 ≤ cross c b a) (hab : pLt a b) (hbm : pLt b m) : False := by
  obtain ⟨a1, a2⟩ := a; obtain ⟨b1, b2⟩ := b; obtain ⟨m1, m2⟩ := m; obtain ⟨c1, c2⟩ := c
  simp only [cross, pLt] at *
  have huw : (m1 - b1) * (b2 - a2) = (m2 - b2) * (b1 - a1) := by nlinarith [h0]
  have hEu : 0 < (b1 - c1) * (m2 - b2) - (b2 - c2) * (m1 - b1) := by nlinarith [h1]
  have hEw : (b1 - c1) * (b2 - a2) - (b2 - c2) * (b1 - a1) ≤ 0 := by nlinarith [h2]
  rcases hbm with hu1 | ⟨hu1, hu2⟩
  · rcases hab with hw1 | ⟨hw1, hw2⟩
    · -- both displacement vectors go strictly right
      have key2 : ((b1 - c1) * (m2 - b2) - (b2 - c2) * (m1 - b1)) * (b1 - a1) =
          (m1 - b1) * ((b1 - c1) * (b2 - a2) - (b2 - c2) * (b1 - a1)) := by
        linear_combination (c1 - b1) * huw
      nlinarith [key2, mul_pos hEu (sub_pos.2 hw1),
        mul_nonpos_of_nonneg_of_nonpos (le_of_lt (sub_pos.2 hu1)) hEw]
    · -- a→b vertical, b→m strictly right: collinearity fails
      subst hw1
      nlinarith [huw, mul_pos (sub_pos.2 hu1) (sub_pos.2 hw2)]
  · -- b→m vertical
    subst hu1
    have hw1 : b1 = a1 := by
      rcases hab with hlt | ⟨he, -⟩
      · nlinarith [huw, mul_pos (sub_pos.2 hu2) (sub_pos.2 hlt)]
      · exact he.symm
    subst hw1
    have hw2 : a2 < b2 := by
      rcases hab with hlt | ⟨-, hy⟩
      · exact absurd hlt (lt_irrefl _)
      · exact hy
    have hbc : 0 < b1 - c1 := by nlinarith [hEu, hu2]
    nlinarith [hEw, mul_pos hbc (sub_pos.2 hw2)]

theorem pairwise_le_getLast {l : List (ℚ × ℚ)} (hp : l.Pairwise pLt) {z : ℚ × ℚ}
    (hz : l.getLast? = some z) : ∀ q ∈ l, pLe q z := by
  induction l with
  | nil => intro q hq; cases hq
  | cons d ds ih =>
    intro q hq
    cases ds with
    | nil =>
      obtain rfl : d = z := by simpa using hz
      obtain rfl : q = d := by simpa using hq
      exact pLe_refl _
    | cons e es =>
      have hz' : (e :: es).getLast? = some z := by
        rw [List.getLast?_cons_cons] at hz; exact hz
      rcases List.mem_cons.1 hq with rfl | hq'
      · exact pLe_of_pLt ((List.pairwise_cons.1 hp).1 z (List.mem_of_getLast?_eq_some hz'))
      · exact ih (List.pairwise_cons.1 hp).2 hz' q hq'

theorem pairwise_head_le {l : List (ℚ × ℚ)} (hp : l.Pairwise pLt) {d : ℚ × ℚ}
    (hd : l.head? = some d) : ∀ q ∈ l, pLe d q := by
  cases l with
  | nil => intro q hq; cases hq
  | cons e es =>
    obtain rfl : e = d := by simpa using hd
    intro q hq
    rcases List.mem_cons.1 hq with rfl | hq'
    · exact pLe_refl _
    · exact pLe_of_pLt ((List.pairwise_cons.1 hp).1 q hq')

/-- A strictly sorted list whose head and last agree is a singleton. -/
theorem pairwise_head_eq_last {l : List (ℚ × ℚ)} (hp : l.Pairwise pLt) {k : ℚ × ℚ}
    (h1 : l.head? = some k) (h2 : l.getLast? = some k) : l = [k] := by
  cases l with
  | nil => cases h1
  | cons d ds =>
    obtain rfl : d = k := by simpa using h1
    cases ds with
    | nil => rfl
    | cons e es =>
      have h2' : (e :: es).getLast? = some d := by
        rw [List.getLast?_cons_cons] at h2; exact h2
      exact absurd ((List.pairwise_cons.1 hp).1 d (List.mem_of_getLast?_eq_some h2'))
        (pLt_irrefl d)

/-- The incoming point, once pushed, is above every kept edge: it walks
down the stack using convexity from the stop condition. -/
theorem RAbove_incoming : ∀ {K : List (ℚ × ℚ)} {p : ℚ × ℚ},
    RConvex K → K.Pairwise (fun x y => pLt y x) → (∀ q ∈ K, pLt q p) →
    (∀ k1 k2 t, K = k1 :: k2 :: t → 0 ≤ cross k2 k1 p) → RAbove p K := by
  intro K
  induction K with
  | nil => intro p _ _ _ _; trivial
  | cons k1 K ih =>
    intro p hconv hsort hgt hstop
    match K with
    | [] => trivial
    | k2 :: t =>
      refine ⟨hstop k1 k2 t rfl, ?_⟩
      refine ih (RConvex_tail hconv) (List.pairwise_cons.1 hsort).2
        (fun q hq => hgt q (List.mem_cons_of_mem _ hq)) ?_
      intro m1 m2 t2 he
      injection he with e1 e2
      subst e1
      subst e2
      exact above_deeper_edge hconv.1 (hstop k1 k2 (m2 :: t2) rfl)
        (pLt_x_le ((List.pairwise_cons.1 (List.pairwise_cons.1 hsort).2).1 m2 (by simp)))
        (hgt k1 (by simp))
        ((List.pairwise_cons.1 hsort).1 k2 (by simp))

/-- Support of the new top edge `k → p` for an already-processed point
`q`, in every pop configuration. -/
theorem new_edge_support {done R : List (ℚ × ℚ)} {p k : ℚ × ℚ} {K' : List (ℚ × ℚ)}
    (hd : done.Pairwise pLt)
    (htop : R.head? = done.getLast?) (hbot : R.getLast? = done.head?)
    (hsorted : R.Pairwise (fun x y => pLt y x)) (hsupp : ∀ q ∈ done, RAbove q R)
    (hgtR : ∀ r ∈ R, pLt r p)
    (hK : popWhile p R = k :: K')
    {q : ℚ × ℚ} (hq : q ∈ done) : 0 ≤ cross k p q := by
  have hKsuf : (k :: K').IsSuffix R := hK ▸ popWhile_suffix p R
  have hkp : k.1 ≤ p.1 := pLt_x_le (hgtR k (hKsuf.subset (by simp)))
  rcases popWhile_cases p R with heq | ⟨b, hbs, a, t, hKat, hcb⟩
  · -- no pop: k is the last processed point
    have hRk : R = k :: K' := heq.symm.trans hK
    have hlastk : done.getLast? = some k := by rw [← htop, hRk]; rfl
    have hqk : pLe q k := pairwise_le_getLast hd hlastk q hq
    cases K' with
    | nil =>
      have hheadk : done.head? = some k := by rw [← hbot, hRk]; rfl
      have hdk : done = [k] := pairwise_head_eq_last hd hheadk hlastk
      obtain rfl : q = k := by rw [hdk] at hq; simpa using hq
      exact le_of_eq (cross_outer_self q p).symm
    | cons k2 t2 =>
      have hstop : 0 < cross k2 k p := popWhile_stop p hK
      have h1 : 0 ≤ cross k2 k q := by
        have hsupq := hsupp q hq
        rw [hRk] at hsupq
        exact hsupq.1
      have hks : pLt k2 k := by
        have hs2 := hsorted
        rw [hRk] at hs2
        exact (List.pairwise_cons.1 hs2).1 k2 (by simp)
      exact above_next_edge_left h1 hstop (pLe_x_le hqk) hks hkp
  · -- at least one pop; `b` is the last popped point
    have he2 : k :: K' = a :: t := hK.symm.trans hKat
    injection he2 with e1 e2
    subst e1
    subst e2
    rw [hKat] at hbs
    have hsb : (b :: k :: K').Pairwise (fun x y => pLt y x) := hsorted.sublist hbs.sublist
    have hkb : pLt k b := (List.pairwise_cons.1 hsb).1 k (by simp)
    have hqab : RAbove q (b :: k :: K') := RAbove_suffix hbs (hsupp q hq)
    by_cases hx : k.1 < q.1
    · exact above_new_edge_right hqab.1 hcb hkp hx hkb
    · push_neg at hx
      cases K' with
      | cons k2 t2 =>
        have hstop : 0 < cross k2 k p := popWhile_stop p hK
        have h1 : 0 ≤ cross k2 k q := hqab.2.1
        have hks : pLt k2 k := (List.pairwise_cons.1 (List.pairwise_cons.1 hsb).2).1 k2 (by simp)
        exact above_next_edge_left h1 hstop hx hks hkp
      | nil =>
        have hlastR : R.getLast? = some k := by
          obtain ⟨s, hs⟩ := hKsuf
          rw [← hs, List.getLast?_append_of_ne_nil s (by simp)]
          rfl
        have hheadk : done.head? = some k := hbot.symm.trans hlastR
        have hle : pLe k q := pairwise_head_le hd hheadk q hq
        have hx2 : q.1 = k.1 := le_antisymm hx (pLe_x_le hle)
        have hy2 : k.2 ≤ q.2 := by
          rcases hle with hlt | ⟨-, hy⟩
          · exact absurd hx2.symm (ne_of_lt hlt)
          · exact hy
        exact above_column hx2 hy2 hkp

/-- One chain iteration preserves the fold invariant. -/
theorem push_sinv {done R : List (ℚ × ℚ)} {p : ℚ × ℚ}
    (hd : done.Pairwise pLt) (hgt : ∀ q ∈ done, pLt q p) (h : SInv done R) :
    SInv (done ++ [p]) (push p R) := by
  obtain ⟨hne, htop, hbot, hsub, hconv, hsupp⟩ := h
  have hdone_ne : done ≠ [] := by
    intro e
    subst e
    exact hne (by simpa using List.sublist_nil.1 hsub)
  have hKne : popWhile p R ≠ [] := popWhile_ne_nil p hne
  have hKsuf : (popWhile p R).IsSuffix R := popWhile_suffix p R
  have hKsub : (popWhile p R).reverse.Sublist done :=
    ((List.reverse_prefix.2 hKsuf).sublist).trans hsub
  have hmemR : ∀ q ∈ R, q ∈ done := fun q hq => hsub.subset (List.mem_reverse.2 hq)
  have hgtR : ∀ q ∈ R, pLt q p := fun q hq => hgt q (hmemR q hq)
  have hsorted : R.Pairwise (fun x y => pLt y x) :=
    List.pairwise_reverse.1 (hd.sublist hsub)
  have hKsorted : (popWhile p R).Pairwise (fun x y => pLt y x) :=
    hsorted.sublist hKsuf.sublist
  have hKmem : ∀ q ∈ popWhile p R, q ∈ R := fun q hq => hKsuf.subset hq
  obtain ⟨k, K', hK⟩ := List.exists_cons_of_ne_nil hKne
  have hKlast : (popWhile p R).getLast? = R.getLast? := by
    obtain ⟨s, hs⟩ := hKsuf
    conv_rhs => rw [← hs]
    rw [List.getLast?_append_of_ne_nil s hKne]
  rw [push_eq_popWhile]
  refine ⟨by simp, ?_, ?_, ?_, ?_, ?_⟩
  · simp [List.getLast?_concat]
  · have e1 : (p :: popWhile p R).getLast? = (popWhile p R).getLast? := by
      rw [hK]
      exact List.getLast?_cons_cons
    rw [e1, hKlast, hbot]
    cases done with
    | nil => exact absurd rfl hdone_ne
    | cons d ds => rfl
  · rw [List.reverse_cons]
    exact hKsub.append_right [p]
  · have hcK : RConvex (popWhile p R) := RConvex_suffix hKsuf hconv
    rw [hK] at hcK ⊢
    cases K' with
    | nil => trivial
    | cons k2 t => exact ⟨popWhile_stop p hK, hcK⟩
  · intro q hq
    rw [hK]
    rcases List.mem_append.1 hq with hq | hq
    · refine ⟨?_, hK ▸ RAbove_suffix hKsuf (hsupp q hq)⟩
      exact new_edge_support hd htop hbot hsorted hsupp hgtR hK hq
    · obtain rfl : q = p := by simpa using hq
      refine ⟨le_of_eq (cross_right_self _ _).symm, ?_⟩
      refine hK ▸ RAbove_incoming (RConvex_suffix hKsuf hconv) hKsorted
        (fun r hr => hgtR r (hKmem r hr)) ?_
      intro k1 k2 t he
      exact le_of_lt (popWhile_stop _ he)

theorem chainRev_good : ∀ {S : List (ℚ × ℚ)}, S.Pairwise pLt → S ≠ [] →
    GoodStack S (chainRev S) := by
  intro S
  induction S using List.reverseRecOn with
  | nil => intro _ h; exact absurd rfl h
  | append_singleton S' p ih =>
    intro hs _
    rcases eq_or_ne S' [] with rfl | hne'
    · exact ⟨by simp [chainRev, push], rfl, rfl, List.Sublist.refl _, trivial, fun _ _ => trivial⟩
    · have hS' : S'.Pairwise pLt := hs.sublist (List.sublist_append_left S' [p])
      have hgt : ∀ q ∈ S', pLt q p := by
        have h := List.pairwise_append.1 hs
        exact fun q hq => h.2.2 q hq p (by simp)
      have e : chainRev (S' ++ [p]) = push p (chainRev S') := by
        simp [chainRev, List.foldl_append]
      have hinv : SInv (S' ++ [p]) (push p (chainRev S')) :=
        push_sinv hS' hgt
          (let g := ih hS' hne'
           ⟨g.1, g.2.1, g.2.2.1, g.2.2.2.1, g.2.2.2.2.1, g.2.2.2.2.2⟩)
      rw [e]
      exact ⟨hinv.ne, hinv.top, hinv.bot, hinv.sub, hinv.conv, hinv.supp⟩

theorem goodStack_desc {S R : List (ℚ × ℚ)} (hs : S.Pairwise pLt) (G : GoodStack S R) :
    R.Pairwise (fun x y => pLt y x) :=
  List.pairwise_reverse.1 (hs.sublist G.2.2.2.1)

theorem goodStack_subset {S R : List (ℚ × ℚ)} (G : GoodStack S R) : ∀ q ∈ R, q ∈ S :=
  fun _ hq => G.2.2.2.1.subset (List.mem_reverse.2 hq)

theorem goodStack_len2 {S R : List (ℚ × ℚ)} (hs : S.Pairwise pLt) (h2 : 2 ≤ S.length)
    (G : GoodStack S R) : 2 ≤ R.length := by
  match R, G.1 with
  | [x], _ =>
    have h1 : S.head? = some x := G.2.2.1.symm
    have h2' : S.getLast? = some x := G.2.1.symm
    have := pairwise_head_eq_last hs h1 h2'
    rw [this] at h2
    exact absurd h2 (by simp)
  | x :: y :: t, _ => simp

/-- Two convex stacks over the same extremes that support each other's
points have equal second elements; proved by deriving a collinearity and
contradicting convexity. -/
theorem stack_second {m a b : ℚ × ℚ} {t₁ t₂ : List (ℚ × ℚ)}
    (hs₁ : (m :: a :: t₁).Pairwise (fun x y => pLt y x))
    (hs₂ : (m :: b :: t₂).Pairwise (fun x y => pLt y x))
    (hc₂ : RConvex (m :: b :: t₂))
    (hlast : (m :: a :: t₁).getLast? = (m :: b :: t₂).getLast?)
    (hsup₁ : ∀ q ∈ m :: b :: t₂, RAbove q (m :: a :: t₁))
    (hsup₂ : ∀ q ∈ m :: a :: t₁, RAbove q (m :: b :: t₂))
    (hab : pLt a b) : False := by
  have h1 : 0 ≤ cross a m b := (hsup₁ b (by simp)).1
  have h2 : 0 ≤ cross b m a := (hsup₂ a (by simp)).1
  have h0 : cross b m a = 0 := by
    have hsw : cross a m b = -(cross b m a) := cross_swap_outer a m b
    linarith
  cases t₂ with
  | nil =>
    have hlast1 : (m :: a :: t₁).getLast? = some b := by
      rw [hlast]; rfl
    have hmem : b ∈ m :: a :: t₁ := List.mem_of_getLast?_eq_some hlast1
    have hbm : pLt b m := (List.pairwise_cons.1 hs₂).1 b (by simp)
    rcases List.mem_cons.1 hmem with rfl | hmem'
    · exact pLt_irrefl b hbm
    · have hle : ∀ x ∈ a :: t₁, pLe x a := by
        intro x hx
        rcases List.mem_cons.1 hx with rfl | hx'
        · exact pLe_refl _
        · exact pLe_of_pLt ((List.pairwise_cons.1 (List.pairwise_cons.1 hs₁).2).1 x hx')
      have hba : pLe b a := hle b hmem'
      rcases eq_or_ne b a with rfl | hne
      · exact pLt_irrefl b hab
      · exact pLt_irrefl a (pLt_trans hab (pLt_of_pLe_ne hba hne))
  | cons c t₂' =>
    have hcv : 0 < cross c b m := hc₂.1
    have h2' : 0 ≤ cross c b a := (hsup₂ a (by simp)).2.1
    have hbm : pLt b m := (List.pairwise_cons.1 hs₂).1 b (by simp)
    exact collinear_contra h0 hcv h2' hab hbm

/-- Uniqueness of the final stack: two strictly convex, strictly
descending stacks with the same top and bottom that support each
other's points are equal. -/
theorem stack_unique : ∀ {R₁ R₂ : List (ℚ × ℚ)},
    R₁.Pairwise (fun x y => pLt y x) → R₂.Pairwise (fun x y => pLt y x) →
    RConvex R₁ → RConvex R₂ → R₁.head? = R₂.head? → R₁.getLast? = R₂.getLast? →
    (∀ q ∈ R₂, RAbove q R₁) → (∀ q ∈ R₁, RAbove q R₂) → R₁ = R₂ := by
  intro R₁
  induction R₁ with
  | nil =>
    intro R₂ _ _ _ _ hh _ _ _
    cases R₂ with
    | nil => rfl
    | cons x t => exact absurd hh (by simp)
  | cons m R₁' ih =>
    intro R₂ hs₁ hs₂ hc₁ hc₂ hh hl hsup₁ hsup₂
    cases R₂ with
    | nil => exact absurd hh (by simp)
    | cons m₂ R₂' =>
      obtain rfl : m = m₂ := by simpa using hh
      cases R₁' with
      | nil =>
        cases R₂' with
        | nil => rfl
        | cons b t₂ =>
          exfalso
          have hlast : (b :: t₂).getLast? = some m := by
            have : (m :: b :: t₂).getLast? = some m := by
              rw [← hl]; rfl
            rwa [List.getLast?_cons_cons] at this
          have hmem : m ∈ b :: t₂ := List.mem_of_getLast?_eq_some hlast
          exact pLt_irrefl m ((List.pairwise_cons.1 hs₂).1 m hmem)
      | cons a t₁ =>
        cases R₂' with
        | nil =>
          exfalso
          have hlast : (a :: t₁).getLast? = some m := by
            have : (m :: a :: t₁).getLast? = some m := by
              rw [hl]; rfl
            rwa [List.getLast?_cons_cons] at this
          have hmem : m ∈ a :: t₁ := List.mem_of_getLast?_eq_some hlast
          exact pLt_irrefl m ((List.pairwise_cons.1 hs₁).1 m hmem)
        | cons b t₂ =>
          obtain rfl : a = b := by
            by_contra hne
            rcases pLe_total a b with h | h
            · exact stack_second hs₁ hs₂ hc₂ hl hsup₁ hsup₂ (pLt_of_pLe_ne h hne)
            · exact stack_second hs₂ hs₁ hc₁ hl.symm hsup₂ hsup₁
                (pLt_of_pLe_ne h (Ne.symm hne))
          have htails : (a :: t₁) = (a :: t₂) := by
            refine ih (List.pairwise_cons.1 hs₁).2 (List.pairwise_cons.1 hs₂).2
              (RConvex_tail hc₁) (RConvex_tail hc₂) rfl ?_ ?_ ?_
            · have e1 : (m :: a :: t₁).getLast? = (a :: t₁).getLast? :=
                List.getLast?_cons_cons
              have e2 : (m :: a :: t₂).getLast? = (a :: t₂).getLast? :=
                List.getLast?_cons_cons
              rw [← e1, ← e2, hl]
            · exact fun q hq => (hsup₁ q (List.mem_cons_of_mem _ hq)).2
            · exact fun q hq => (hsup₂ q (List.mem_cons_of_mem _ hq)).2
          rw [htails]

theorem negP_invol (p : ℚ × ℚ) : negP (negP p) = p := by
  unfold negP
  simp

theorem map_negP_invol (l : List (ℚ × ℚ)) : (l.map negP).map negP = l := by
  rw [List.map_map]
  have : (negP ∘ negP) = id := funext fun p => negP_invol p
  rw [this, List.map_id]

theorem cross_negP (o a b : ℚ × ℚ) : cross (negP o) (negP a) (negP b) = cross o a b := by
  obtain ⟨o1, o2⟩ := o; obtain ⟨a1, a2⟩ := a; obtain ⟨b1, b2⟩ := b
  simp only [cross, negP]
  ring

theorem pLt_negP {p q : ℚ × ℚ} : pLt (negP q) (negP p) ↔ pLt p q := by
  obtain ⟨p1, p2⟩ := p; obtain ⟨q1, q2⟩ := q
  simp only [pLt, negP]
  constructor
  · rintro (h | ⟨he, h⟩)
    · exact Or.inl (by linarith)
    · exact Or.inr ⟨by linarith, by linarith⟩
  · rintro (h | ⟨he, h⟩)
    · exact Or.inl (by linarith)
    · exact Or.inr ⟨by linarith, by linarith⟩

/-- Unfolding equation of `push` on a stack with at least two points. -/
theorem push_cons₂ (p b a : ℚ × ℚ) (t : List (ℚ × ℚ)) :
    push p (b :: a :: t) = if cross a b p ≤ 0 then push p (a :: t) else p :: b :: a :: t := rfl

theorem push_negP (p : ℚ × ℚ) : ∀ R, push (negP p) (R.map negP) = (push p R).map negP
  | [] => rfl
  | [_] => rfl
  | b :: a :: t => by
    show push (negP p) (negP b :: negP a :: t.map negP) = (push p (b :: a :: t)).map negP
    rw [push_cons₂, push_cons₂, cross_negP]
    by_cases hc : cross a b p ≤ 0
    · rw [if_pos hc, if_pos hc]
      exact push_negP p (a :: t)
    · rw [if_neg hc, if_neg hc]
      rfl

theorem chainRev_negP_aux : ∀ (S acc : List (ℚ × ℚ)),
    (S.map negP).foldl (fun s p => push p s) (acc.map negP) =
      (S.foldl (fun s p => push p s) acc).map negP
  | [], _ => rfl
  | p :: S, acc => by
    show (S.map negP).foldl _ (push (negP p) (acc.map negP)) = _
    rw [push_negP p acc]
    exact chainRev_negP_aux S (push p acc)

theorem chainRev_negP (S : List (ℚ × ℚ)) : chainRev (S.map negP) = (chainRev S).map negP :=
  chainRev_negP_aux S []

theorem pairwise_negP_reverse {S : List (ℚ × ℚ)} (hs : S.Pairwise pLt) :
    ((S.map negP).reverse).Pairwise pLt := by
  rw [List.pairwise_reverse, List.pairwise_map]
  exact hs.imp fun h => pLt_negP.2 h

/-! Facts about `sorted(set(points))`. -/

theorem sortedDedup_nodup (l : List (ℚ × ℚ)) : (sortedDedup l).Nodup :=
  (List.perm_insertionSort pLe l.dedup).nodup_iff.2 (List.nodup_dedup l)

theorem sortedDedup_sorted (l : List (ℚ × ℚ)) : (sortedDedup l).Pairwise pLt := by
  have h1 : (sortedDedup l).Pairwise pLe := List.sorted_insertionSort pLe l.dedup
  exact (List.Pairwise.imp₂ (fun a b hle hne => pLt_of_pLe_ne hle hne) h1 (sortedDedup_nodup l))

theorem sortedDedup_mem {l : List (ℚ × ℚ)} {a : ℚ × ℚ} : a ∈ sortedDedup l ↔ a ∈ l := by
  unfold sortedDedup
  rw [(List.perm_insertionSort pLe l.dedup).mem_iff, List.mem_dedup]

theorem sortedDedup_eq_self {l : List (ℚ × ℚ)} (h : l.Pairwise pLt) : sortedDedup l = l := by
  have hn : l.Nodup := by
    refine h.imp ?_
    intro a b hlt he
    exact pLt_irrefl a (he ▸ hlt)
  unfold sortedDedup
  rw [List.dedup_eq_self.2 hn]
  exact List.Sorted.insertionSort_eq (h.imp fun hlt => pLe_of_pLt hlt)

/-- A strictly sorted list embeds as a sublist into any strictly sorted
list containing its elements. -/
theorem sublist_of_sorted_subset : ∀ {l₂ l₁ : List (ℚ × ℚ)}, l₁.Pairwise pLt →
    l₂.Pairwise pLt → (∀ a ∈ l₁, a ∈ l₂) → l₁.Sublist l₂ := by
  intro l₂
  induction l₂ with
  | nil =>
    intro l₁ _ _ hsub
    cases l₁ with
    | nil => exact List.Sublist.refl _
    | cons y t => exact absurd (hsub y (by simp)) (by simp)
  | cons x t₂ ih =>
    intro l₁ h₁ h₂ hsub
    cases l₁ with
    | nil => exact List.nil_sublist _
    | cons y t₁ =>
      rcases eq_or_ne y x with rfl | hne
      · refine List.Sublist.cons₂ y (ih (List.pairwise_cons.1 h₁).2 (List.pairwise_cons.1 h₂).2 ?_)
        intro a ha
        have hmem : a ∈ y :: t₂ := hsub a (List.mem_cons_of_mem y ha)
        rcases List.mem_cons.1 hmem with rfl | h
        · exact absurd ((List.pairwise_cons.1 h₁).1 a ha) (pLt_irrefl a)
        · exact h
      · refine List.Sublist.cons x (ih h₁ (List.pairwise_cons.1 h₂).2 ?_)
        intro a ha
        have hmem : a ∈ x :: t₂ := hsub a ha
        rcases List.mem_cons.1 hmem with rfl | h
        · exfalso
          have hy : y ∈ a :: t₂ := hsub y (by simp)
          have hxy : pLt a y := by
            rcases List.mem_cons.1 hy with rfl | hy'
            · exact absurd rfl hne
            · exact (List.pairwise_cons.1 h₂).1 y hy'
          rcases List.mem_cons.1 ha with rfl | ha'
          · exact hne rfl
          · exact pLt_asymm hxy ((List.pairwise_cons.1 h₁).1 a ha')
        · exact h

theorem sorted_head?_eq {l : List (ℚ × ℚ)} (hp : l.Pairwise pLt) {m : ℚ × ℚ} (hm : m ∈ l)
    (hmin : ∀ x ∈ l, pLe m x) : l.head? = some m := by
  cases l with
  | nil => cases hm
  | cons x t =>
    have h1 : pLe x m := pairwise_head_le hp rfl m hm
    have h2 : pLe m x := hmin x (by simp)
    rw [pLe_antisymm h1 h2]
    rfl

theorem sorted_getLast?_eq {l : List (ℚ × ℚ)} (hp : l.Pairwise pLt) {m : ℚ × ℚ} (hm : m ∈ l)
    (hmax : ∀ x ∈ l, pLe x m) : l.getLast? = some m := by
  cases hz : l.getLast? with
  | none =>
    rw [List.getLast?_eq_none_iff] at hz
    subst hz
    cases hm
  | some z =>
    have h1 : pLe m z := pairwise_le_getLast hp hz m hm
    have h2 : pLe z m := hmax z (List.mem_of_getLast?_eq_some hz)
    rw [pLe_antisymm h2 h1]

theorem two_mem_le_length {l : List (ℚ × ℚ)} {a b : ℚ × ℚ} (ha : a ∈ l) (hb : b ∈ l)
    (hne : a ≠ b) : 2 ≤ l.length := by
  cases l with
  | nil => cases ha
  | cons x t =>
    cases t with
    | nil =>
      have ha' : a = x := by simpa using ha
      have hb' : b = x := by simpa using hb
      exact absurd (ha'.trans hb'.symm) hne
    | cons y t' => simp [List.length_cons]

theorem mem_dropLast_or_eq {l : List (ℚ × ℚ)} {q z : ℚ × ℚ} (hq : q ∈ l)
    (hz : l.getLast? = some z) : q ∈ l.dropLast ∨ q = z := by
  have hne : l ≠ [] := by intro e; subst e; cases hq
  have he : l.dropLast ++ [l.getLast hne] = l := List.dropLast_append_getLast hne
  have hzz : l.getLast hne = z := by
    have h3 := List.getLast?_eq_getLast l hne
    rw [h3] at hz
    injection hz
  rw [← he] at hq
  rcases List.mem_append.1 hq with h | h
  · exact Or.inl h
  · right
    have h4 : q = l.getLast hne := by simpa using h
    rw [h4, hzz]

theorem head_mem_dropLast {l : List (ℚ × ℚ)} {x : ℚ × ℚ} (h2 : 2 ≤ l.length)
    (hx : l.head? = some x) : x ∈ l.dropLast := by
  match l, h2, hx with
  | a :: b :: t, _, hx =>
    obtain rfl : a = x := by simpa using hx
    rw [List.dropLast_cons₂]
    simp

theorem reverse_dropLast (l : List (ℚ × ℚ)) : l.reverse.dropLast = l.tail.reverse := by
  cases l with
  | nil => rfl
  | cons x t =>
    rw [List.reverse_cons, List.dropLast_concat]
    rfl

/-! ## Hull idempotence (claim C6) -/

/-- The upper chain is the reflection of a lower chain run on the
point-reflected, re-sorted input. -/
theorem chainRev_reverse_eq (S : List (ℚ × ℚ)) :
    chainRev S.reverse = (chainRev ((S.map negP).reverse)).map negP := by
  have hTS : ((S.map negP).reverse).map negP = S.reverse := by
    rw [List.map_reverse, map_negP_invol]
  conv_lhs => rw [← hTS]
  exact chainRev_negP _

/-- The upper chain starts at the minimal input point and ends at the
maximal one. -/
theorem chainRev_reverse_ends (S : List (ℚ × ℚ)) (hs : S.Pairwise pLt) (hne : S ≠ []) :
    (chainRev S.reverse).head? = S.head? ∧ (chainRev S.reverse).getLast? = S.getLast? := by
  have hsT : ((S.map negP).reverse).Pairwise pLt := pairwise_negP_reverse hs
  have hTne : (S.map negP).reverse ≠ [] := by
    rw [Ne, List.reverse_eq_nil_iff, List.map_eq_nil_iff]
    exact hne
  have GT : GoodStack ((S.map negP).reverse) (chainRev ((S.map negP).reverse)) :=
    chainRev_good hsT hTne
  constructor
  · rw [chainRev_reverse_eq, List.head?_map, GT.2.1, List.getLast?_reverse, List.head?_map]
    cases hz : S.head? with
    | none => simp
    | some z => simp [negP_invol]
  · rw [chainRev_reverse_eq, List.getLast?_map, GT.2.2.1, List.head?_reverse,
      List.getLast?_map]
    cases hz : S.getLast? with
    | none => simp
    | some z => simp [negP_invol]

/-- Core of the idempotence argument: re-running both chain loops on the
concatenation of the two truncated runs reproduces the runs themselves. -/
theorem chain_pair_idem {S H : List (ℚ × ℚ)} (hsS : S.Pairwise pLt) (hS2 : 2 ≤ S.length)
    (hH : H = ((chainRev S).reverse).dropLast ++ ((chainRev S.reverse).reverse).dropLast) :
    chainRev (sortedDedup H) = chainRev S ∧
      chainRev (sortedDedup H).reverse = chainRev S.reverse ∧
      2 ≤ (sortedDedup H).length := by
  have hSne : S ≠ [] := by
    intro e
    rw [e] at hS2
    exact absurd hS2 (by simp)
  obtain ⟨s0, hs0⟩ : ∃ s0, S.head? = some s0 := by
    cases S with
    | nil => exact absurd rfl hSne
    | cons a t => exact ⟨a, rfl⟩
  obtain ⟨z0, hz0⟩ : ∃ z0, S.getLast? = some z0 := by
    cases hz : S.getLast? with
    | none =>
      rw [List.getLast?_eq_none_iff] at hz
      exact absurd hz hSne
    | some z => exact ⟨z, rfl⟩
  have hs0mem : s0 ∈ S := by
    cases S with
    | nil => exact absurd rfl hSne
    | cons a t =>
      obtain rfl : a = s0 := by simpa using hs0
      exact List.mem_cons_self _ _
  have hz0mem : z0 ∈ S := List.mem_of_getLast?_eq_some hz0
  have hs0min : ∀ x ∈ S, pLe s0 x := pairwise_head_le hsS hs0
  have hz0max : ∀ x ∈ S, pLe x z0 := fun x hx => pairwise_le_getLast hsS hz0 x hx
  have hs0z0 : s0 ≠ z0 := by
    intro e
    have h1 : S = [s0] := pairwise_head_eq_last hsS hs0 (by rw [e]; exact hz0)
    rw [h1] at hS2
    exact absurd hS2 (by simp)
  have Glow : GoodStack S (chainRev S) := chainRev_good hsS hSne
  have hLR2 : 2 ≤ (chainRev S).length := goodStack_len2 hsS hS2 Glow
  have hsT : ((S.map negP).reverse).Pairwise pLt := pairwise_negP_reverse hsS
  have hTne : (S.map negP).reverse ≠ [] := by
    rw [Ne, List.reverse_eq_nil_iff, List.map_eq_nil_iff]
    exact hSne
  have GT : GoodStack ((S.map negP).reverse) (chainRev ((S.map negP).reverse)) :=
    chainRev_good hsT hTne
  have hT2 : 2 ≤ ((S.map negP).reverse).length := by
    rw [List.length_reverse, List.length_map]
    exact hS2
  have hUT2 : 2 ≤ (chainRev ((S.map negP).reverse)).length := goodStack_len2 hsT hT2 GT
  have hUR2 : 2 ≤ (chainRev S.reverse).length := by
    rw [chainRev_reverse_eq, List.length_map]
    exact hUT2
  have hURhead : (chainRev S.reverse).head? = some s0 := by
    rw [(chainRev_reverse_ends S hsS hSne).1, hs0]
  have hURlast : (chainRev S.reverse).getLast? = some z0 := by
    rw [(chainRev_reverse_ends S hsS hSne).2, hz0]
  have hURsub : ∀ q ∈ chainRev S.reverse, q ∈ S := by
    intro q hq
    rw [chainRev_reverse_eq] at hq
    obtain ⟨r, hr, rfl⟩ := List.mem_map.1 hq
    have hrT : r ∈ (S.map negP).reverse := goodStack_subset GT r hr
    rw [List.mem_reverse, List.mem_map] at hrT
    obtain ⟨x, hx, rfl⟩ := hrT
    rw [negP_invol]
    exact hx
  have hHsub : ∀ a ∈ H, a ∈ S := by
    intro a ha
    rw [hH, List.mem_append] at ha
    rcases ha with h | h
    · have h1 : a ∈ (chainRev S).reverse := ((chainRev S).reverse).dropLast_sublist.subset h
      rw [List.mem_reverse] at h1
      exact goodStack_subset Glow a h1
    · have h1 : a ∈ (chainRev S.reverse).reverse :=
        ((chainRev S.reverse).reverse).dropLast_sublist.subset h
      rw [List.mem_reverse] at h1
      exact hURsub a h1
  have hs0H : s0 ∈ H := by
    have hh : ((chainRev S).reverse).head? = some s0 := by
      rw [List.head?_reverse, Glow.2.2.1, hs0]
    have h2 : 2 ≤ ((chainRev S).reverse).length := by
      rw [List.length_reverse]
      exact hLR2
    have h3 := head_mem_dropLast h2 hh
    rw [hH, List.mem_append]
    exact Or.inl h3
  have hz0H : z0 ∈ H := by
    have hh : ((chainRev S.reverse).reverse).head? = some z0 := by
      rw [List.head?_reverse, hURlast]
    have h2 : 2 ≤ ((chainRev S.reverse).reverse).length := by
      rw [List.length_reverse]
      exact hUR2
    have h3 := head_mem_dropLast h2 hh
    rw [hH, List.mem_append]
    exact Or.inr h3
  have hsV : (sortedDedup H).Pairwise pLt := sortedDedup_sorted H
  have hVmem : ∀ a : ℚ × ℚ, a ∈ sortedDedup H ↔ a ∈ H := fun a => sortedDedup_mem
  have hVsub : ∀ a ∈ sortedDedup H, a ∈ S := fun a ha => hHsub a ((hVmem a).1 ha)
  have hVhead : (sortedDedup H).head? = some s0 :=
    sorted_head?_eq hsV ((hVmem s0).2 hs0H) (fun x hx => hs0min x (hVsub x hx))
  have hVlast : (sortedDedup H).getLast? = some z0 :=
    sorted_getLast?_eq hsV ((hVmem z0).2 hz0H) (fun x hx => hz0max x (hVsub x hx))
  have hV2 : 2 ≤ (sortedDedup H).length :=
    two_mem_le_length ((hVmem s0).2 hs0H) ((hVmem z0).2 hz0H) hs0z0
  have hVne : sortedDedup H ≠ [] := by
    intro e
    rw [e] at hV2
    exact absurd hV2 (by simp)
  have GV : GoodStack (sortedDedup H) (chainRev (sortedDedup H)) := chainRev_good hsV hVne
  have hLRmemV : ∀ q ∈ chainRev S, q ∈ sortedDedup H := by
    intro q hq
    have hq' : q ∈ (chainRev S).reverse := List.mem_reverse.2 hq
    have hlast : ((chainRev S).reverse).getLast? = some z0 := by
      rw [List.getLast?_reverse, Glow.2.1, hz0]
    rcases mem_dropLast_or_eq hq' hlast with h | h
    · exact (hVmem q).2 (by rw [hH, List.mem_append]; exact Or.inl h)
    · rw [h]
      exact (hVmem z0).2 hz0H
  have hURmemV : ∀ q ∈ chainRev S.reverse, q ∈ sortedDedup H := by
    intro q hq
    have hq' : q ∈ (chainRev S.reverse).reverse := List.mem_reverse.2 hq
    have hlast : ((chainRev S.reverse).reverse).getLast? = some s0 := by
      rw [List.getLast?_reverse, hURhead]
    rcases mem_dropLast_or_eq hq' hlast with h | h
    · exact (hVmem q).2 (by rw [hH, List.mem_append]; exact Or.inr h)
    · rw [h]
      exact (hVmem s0).2 hs0H
  have hLower : chainRev (sortedDedup H) = chainRev S := by
    refine stack_unique (goodStack_desc hsV GV) (goodStack_desc hsS Glow)
      GV.2.2.2.2.1 Glow.2.2.2.2.1 ?_ ?_ (fun q hq => GV.2.2.2.2.2 q (hLRmemV q hq))
      (fun q hq => Glow.2.2.2.2.2 q (hVsub q (goodStack_subset GV q hq)))
    · rw [GV.2.1, Glow.2.1, hVlast, hz0]
    · rw [GV.2.2.1, Glow.2.2.1, hVhead, hs0]
  have hsV' : (((sortedDedup H).map negP).reverse).Pairwise pLt := pairwise_negP_reverse hsV
  have hV'ne : ((sortedDedup H).map negP).reverse ≠ [] := by
    rw [Ne, List.reverse_eq_nil_iff, List.map_eq_nil_iff]
    exact hVne
  have GV' : GoodStack (((sortedDedup H).map negP).reverse)
      (chainRev (((sortedDedup H).map negP).reverse)) := chainRev_good hsV' hV'ne
  have hUpperT : chainRev (((sortedDedup H).map negP).reverse) =
      chainRev ((S.map negP).reverse) := by
    refine stack_unique (goodStack_desc hsV' GV') (goodStack_desc hsT GT)
      GV'.2.2.2.2.1 GT.2.2.2.2.1 ?_ ?_ ?_ ?_
    · rw [GV'.2.1, GT.2.1, List.getLast?_reverse, List.getLast?_reverse,
        List.head?_map, List.head?_map, hVhead, hs0]
    · rw [GV'.2.2.1, GT.2.2.1, List.head?_reverse, List.head?_reverse,
        List.getLast?_map, List.getLast?_map, hVlast, hz0]
    · intro q hq
      apply GV'.2.2.2.2.2
      have h1 : negP q ∈ chainRev S.reverse := by
        rw [chainRev_reverse_eq]
        exact List.mem_map.2 ⟨q, hq, rfl⟩
      have h2 : negP q ∈ sortedDedup H := hURmemV _ h1
      rw [List.mem_reverse, List.mem_map]
      exact ⟨negP q, h2, negP_invol q⟩
    · intro q hq
      apply GT.2.2.2.2.2
      have h1 : q ∈ ((sortedDedup H).map negP).reverse := goodStack_subset GV' q hq
      rw [List.mem_reverse, List.mem_map] at h1
      obtain ⟨v, hv, rfl⟩ := h1
      rw [List.mem_reverse, List.mem_map]
      exact ⟨v, hVsub v hv, rfl⟩
  have hUpper : chainRev (sortedDedup H).reverse = chainRev S.reverse := by
    rw [chainRev_reverse_eq (sortedDedup H), chainRev_reverse_eq S, hUpperT]
  exact ⟨hLower, hUpper, hV2⟩

/-- `convex_hull` applied to an already sorted, deduplicated copy of its
input gives the same result. -/
theorem convex_hull_sortedDedup (pts : List (ℚ × ℚ)) :
    convex_hull (sortedDedup pts) = convex_hull pts := by
  unfold convex_hull
  rw [sortedDedup_eq_self (sortedDedup_sorted pts)]

/-- On 2 or more distinct points `convex_hull` is the concatenation of
the two truncated chain runs. -/
theorem convex_hull_eq_of_big {l : List (ℚ × ℚ)} (h : ¬ (sortedDedup l).length ≤ 1) :
    convex_hull l = ((chainRev (sortedDedup l)).reverse).dropLast ++
      ((chainRev (sortedDedup l).reverse).reverse).dropLast := by
  unfold convex_hull
  simp only [chain]
  rw [if_neg h]

/-- C6: the convex hull operation is idempotent: recomputing
`convex_hull` on its own output returns that output unchanged (same
vertices, same order). -/
theorem convex_hull_idempotent (pts : List (ℚ × ℚ)) :
    convex_hull (convex_hull pts) = convex_hull pts := by
  by_cases hlen : (sortedDedup pts).length ≤ 1
  · have h1 : convex_hull pts = sortedDedup pts := by
      unfold convex_hull
      simp [hlen]
    rw [h1, convex_hull_sortedDedup]
    exact h1
  · have key := chain_pair_idem (sortedDedup_sorted pts) (by omega : 2 ≤ (sortedDedup pts).length) rfl
    have h1 : convex_hull pts = ((chainRev (sortedDedup pts)).reverse).dropLast ++
        ((chainRev (sortedDedup pts).reverse).reverse).dropLast := convex_hull_eq_of_big hlen
    have hcard : ¬ (sortedDedup (convex_hull pts)).length ≤ 1 := by
      rw [h1]
      have h3 := key.2.2
      omega
    have h2 := convex_hull_eq_of_big hcard
    rw [h2, h1, key.1, key.2.1]

/-- A value rounded to `n` digits is an integer multiple of `10 ^ (-n)`. -/
theorem pyRound_quantized (n : ℕ) (x : ℝ) : ∃ k : ℤ, pyRound n x = (k : ℝ) / 10 ^ n := by
  unfold pyRound
  split_ifs
  · exact ⟨⌊x * 10 ^ n⌋, rfl⟩
  · exact ⟨⌊x * 10 ^ n⌋ + 1, by push_cast; ring⟩
  · exact ⟨⌊x * 10 ^ n⌋, rfl⟩
  · exact ⟨⌊x * 10 ^ n⌋ + 1, by push_cast; ring⟩

/-- `gapAt` at a pair of in-range indices reduces to the threshold test. -/
theorem gapAt_eq {lineName branch : List Char} {l : List Station} {i : ℕ} {a b : Station}
    (ha : l[i]? = some a) (hb : l[i + 1]? = some b) :
    gapAt lineName branch l i =
      if (GAP_THRESHOLD_KM : ℝ) ≤ stationDist a b then some (mkGap lineName branch a b)
      else none := by
  unfold gapAt
  simp only [ha, hb, Option.some_bind]

/-- C3: within a branch group, scanning consecutive pairs `(i, i+1)`
emits a gap record (with its line-segment geometry) for every pair whose
haversine distance is ≥ the 5 km threshold (inclusive), every emitted
record comes from such a pair, a group with at most one station emits
nothing (and is not an error), and the full `gaps_info` list is this
scan run over every branch group. -/
theorem gap_scan_spec (lineName branch : List Char) (l : List Station) :
    (∀ (i : ℕ) (a b : Station), l[i]? = some a → l[i + 1]? = some b →
        (GAP_THRESHOLD_KM : ℝ) ≤ stationDist a b →
        mkGap lineName branch a b ∈ gapsFor lineName branch l) ∧
      (∀ g ∈ gapsFor lineName branch l, ∃ (i : ℕ) (a b : Station),
        l[i]? = some a ∧ l[i + 1]? = some b ∧
          (GAP_THRESHOLD_KM : ℝ) ≤ stationDist a b ∧ g = mkGap lineName branch a b) ∧
      (l.length ≤ 1 → gapsFor lineName branch l = []) ∧
      gaps_info l = (lineBranchGroups l).flatMap (fun g => gapsFor g.1.1 g.1.2 g.2) := by
  refine ⟨?_, ?_, ?_, rfl⟩
  · intro i a b ha hb hd
    have hi : i < l.length - 1 := by
      have h1 := (List.getElem?_eq_some_iff.1 hb).1
      omega
    unfold gapsFor
    rw [List.mem_filterMap]
    exact ⟨i, List.mem_range.2 hi, by rw [gapAt_eq ha hb, if_pos hd]⟩
  · intro g hg
    unfold gapsFor at hg
    rw [List.mem_filterMap] at hg
    obtain ⟨i, _, hf⟩ := hg
    cases ha : l[i]? with
    | none =>
      unfold gapAt at hf
      simp [ha] at hf
    | some a =>
      cases hb : l[i + 1]? with
      | none =>
        unfold gapAt at hf
        simp [ha, hb] at hf
      | some b =>
        rw [gapAt_eq ha hb] at hf
        by_cases hd : (GAP_THRESHOLD_KM : ℝ) ≤ stationDist a b
        · rw [if_pos hd] at hf
          exact ⟨i, a, b, ha, hb, hd, (Option.some.inj hf).symm⟩
        · rw [if_neg hd] at hf
          cases hf
  · intro hl
    have h0 : l.length - 1 = 0 := by omega
    unfold gapsFor
    rw [h0]
    rfl

/-- C7: for a positive point count, `circle_polygon` returns exactly
`n_points + 1` vertices, the ring is closed (first vertex = last
vertex, since the angles run from 0 to 2π inclusive), and the `i`-th
vertex is the center displaced by the radius converted to degree space
via the projection constants, in `(lng, lat)` order. -/
theorem circle_polygon_spec (lat lng radius_km : ℝ) (n_points : ℕ) (hn : 0 < n_points) :
    (circle_polygon lat lng radius_km n_points).length = n_points + 1 ∧
      (circle_polygon lat lng radius_km n_points).head? =
        (circle_polygon lat lng radius_km n_points).getLast? ∧
      ∀ i : ℕ, i ≤ n_points → (circle_polygon lat lng radius_km n_points)[i]? =
        some (pyRound 8 (lng + radius_km / (KM_PER_DEG_LNG : ℝ) *
                Real.cos (2 * Real.pi * i / n_points)),
              pyRound 8 (lat + radius_km / (KM_PER_DEG_LAT : ℝ) *
                Real.sin (2 * Real.pi * i / n_points))) := by
  have hlen : (circle_polygon lat lng radius_km n_points).length = n_points + 1 := by
    unfold circle_polygon
    rw [List.length_map, List.length_range]
  have hget : ∀ i : ℕ, i ≤ n_points → (circle_polygon lat lng radius_km n_points)[i]? =
      some (pyRound 8 (lng + radius_km / (KM_PER_DEG_LNG : ℝ) *
              Real.cos (2 * Real.pi * i / n_points)),
            pyRound 8 (lat + radius_km / (KM_PER_DEG_LAT : ℝ) *
              Real.sin (2 * Real.pi * i / n_points))) := by
    intro i hi
    unfold circle_polygon
    rw [List.getElem?_map, List.getElem?_range (by omega)]
    rfl
  refine ⟨hlen, ?_, hget⟩
  have hne : ((n_points : ℕ) : ℝ) ≠ 0 := Nat.cast_ne_zero.2 hn.ne'
  have e1 : (circle_polygon lat lng radius_km n_points).head? =
      (circle_polygon lat lng radius_km n_points)[0]? := by
    cases hc : circle_polygon lat lng radius_km n_points with
    | nil => rfl
    | cons p t => simp
  have e2 : (circle_polygon lat lng radius_km n_points).getLast? =
      (circle_polygon lat lng radius_km n_points)[n_points]? := by
    rw [List.getLast?_eq_getElem?, hlen]
    norm_num
  rw [e1, e2, hget 0 (Nat.zero_le _), hget n_points (le_refl _)]
  have ha0 : (2 * Real.pi * ((0 : ℕ) : ℝ) / n_points) = 0 := by
    norm_num
  have han : (2 * Real.pi * ((n_points : ℕ) : ℝ) / n_points) = 2 * Real.pi := by
    rw [mul_div_assoc, div_self hne, mul_one]
  rw [ha0, han, Real.cos_zero, Real.cos_two_pi, Real.sin_zero, Real.sin_two_pi]

/-- C7 witness: at center `(0,0)`, radius 1, point count 4, the ring has
5 vertices. -/
theorem circle_polygon_spec_witness : (circle_polygon 0 0 1 4).length = 4 + 1 :=
  (circle_polygon_spec 0 0 1 4 (by norm_num)).1

/-- C9: the longitude scale constant contradicts the documented
formula: the standard approximation `111.320 * cos(13.7°)` evaluates to
about 108.15 km, strictly greater than the constant `107.551` in the
code, so `KM_PER_DEG_LNG` is not the cosine-compressed equatorial
degree length at the reference latitude. -/
theorem km_per_deg_lng_mismatch :
    ((KM_PER_DEG_LNG : ℚ) : ℝ) < specKmPerDegLng ∧
      ((KM_PER_DEG_LNG : ℚ) : ℝ) ≠ specKmPerDegLng := by
  have hval : ((KM_PER_DEG_LNG : ℚ) : ℝ) = 107.551 := by
    norm_num [KM_PER_DEG_LNG]
  have hπu : Real.pi < 3.141593 := Real.pi_lt_d6
  have hx0 : (0 : ℝ) < radians 13.7 := by
    unfold radians
    positivity
  have hxu : radians 13.7 ≤ 0.23912 := by
    unfold radians
    nlinarith [hπu]
  have hx1 : |radians 13.7| ≤ 1 := by
    rw [abs_of_pos hx0]
    linarith
  have hb := Real.cos_bound hx1
  rw [abs_of_pos hx0] at hb
  have hb1 := (abs_le.1 hb).1
  have hx2 : radians 13.7 ^ 2 ≤ 0.23912 ^ 2 := pow_le_pow_left₀ hx0.le hxu 2
  have hx4 : radians 13.7 ^ 4 ≤ 0.23912 ^ 4 := pow_le_pow_left₀ hx0.le hxu 4
  have hcos : (0.9712 : ℝ) ≤ Real.cos (radians 13.7) := by nlinarith [hb1, hx2, hx4]
  have hlt : ((KM_PER_DEG_LNG : ℚ) : ℝ) < specKmPerDegLng := by
    unfold specKmPerDegLng
    rw [hval]
    nlinarith [hcos]
  exact ⟨hlt, ne_of_lt hlt⟩

/-- Unfolding of `desertCells` on a nonempty station list. -/
theorem desertCells_eq {S : List Station} {b : BBox} {k0 : ℚ × ℚ} {ks : List (ℚ × ℚ)}
    (hb : bbox S = some b) (hk : stationsKm b S = k0 :: ks) :
    desertCells S = some (desertCellsFrom b k0 ks) := by
  unfold desertCells
  rw [hb]
  simp only [Option.some_bind]
  rw [hk]

/-- Membership in the candidate list, characterized by the generating
sample cell. -/
theorem mem_desertCellsFrom {b : BBox} {k0 : ℚ × ℚ} {ks : List (ℚ × ℚ)} {z : DesertCell} :
    z ∈ desertCellsFrom b k0 ks ↔
      ∃ r c : ℕ, r ∈ range5 (nRows b) ∧ c ∈ range5 (nCols b) ∧
        (GAP_THRESHOLD_KM : ℝ) ≤ minSqrtDist k0 ks (cellCenter r c).1 (cellCenter r c).2 ∧
        z = ⟨b.min_lat + (cellCenter r c).1 / KM_PER_DEG_LAT,
             b.min_lng + (cellCenter r c).2 / KM_PER_DEG_LNG,
             pyRound 2 (minSqrtDist k0 ks (cellCenter r c).1 (cellCenter r c).2)⟩ := by
  unfold desertCellsFrom
  rw [List.mem_flatMap]
  constructor
  · rintro ⟨r, hr, hz⟩
    rw [List.mem_filterMap] at hz
    obtain ⟨c, hc, hf⟩ := hz
    by_cases hcond :
        (GAP_THRESHOLD_KM : ℝ) ≤ minSqrtDist k0 ks (cellCenter r c).1 (cellCenter r c).2
    · rw [if_pos hcond] at hf
      exact ⟨r, c, hr, hc, hcond, (Option.some.inj hf).symm⟩
    · rw [if_neg hcond] at hf
      cases hf
  · rintro ⟨r, c, hr, hc, hcond, rfl⟩
    exact ⟨r, hr, List.mem_filterMap.2 ⟨c, hc, by rw [if_pos hcond]⟩⟩

instance : IsTotal DesertCell (fun a b : DesertCell => b.nearest_km ≤ a.nearest_km) :=
  ⟨fun a b => le_total b.nearest_km a.nearest_km⟩

instance : IsTrans DesertCell (fun a b : DesertCell => b.nearest_km ≤ a.nearest_km) :=
  ⟨fun _ _ _ h1 h2 => le_trans h2 h1⟩

/-- The ranked candidate list is sorted by descending `nearest_km`. -/
theorem desertRanked_sorted (l : List DesertCell) :
    List.Pairwise (fun a b : DesertCell => b.nearest_km ≤ a.nearest_km) (desertRanked l) :=
  List.sorted_insertionSort _ l

/-- In a descending list, everything kept by `take` dominates
everything dropped by `drop`. -/
theorem sorted_take_drop (l : List DesertCell)
    (h : List.Pairwise (fun a b : DesertCell => b.nearest_km ≤ a.nearest_km) l) (n : ℕ) :
    ∀ z ∈ l.take n, ∀ w ∈ l.drop n, w.nearest_km ≤ z.nearest_km := by
  intro z hz w hw
  have hs : List.Pairwise (fun a b : DesertCell => b.nearest_km ≤ a.nearest_km)
      (l.take n ++ l.drop n) := by
    rw [List.take_append_drop]
    exact h
  exact (List.pairwise_append.1 hs).2.2 z hz w hw

/-- `keyFilter` on a cons. -/
theorem keyFilter_cons (v : ℝ) (a : DesertCell) (l : List DesertCell) :
    keyFilter v (a :: l) =
      if a.nearest_km = v then a :: keyFilter v l else keyFilter v l := by
  by_cases h : a.nearest_km = v
  · simp [keyFilter, List.filter_cons, h]
  · simp [keyFilter, List.filter_cons, h]

/-- Inserting into any list does not disturb the relative order of a
fixed key class: the inserted element goes in front of its own class,
and every element it jumps over has a strictly larger key. -/
theorem keyFilter_orderedInsert (v : ℝ) (a : DesertCell) :
    ∀ l : List DesertCell,
      keyFilter v
          (List.orderedInsert (fun p q : DesertCell => q.nearest_km ≤ p.nearest_km) a l) =
        if a.nearest_km = v then a :: keyFilter v l else keyFilter v l := by
  intro l
  induction l with
  | nil => rw [List.orderedInsert, keyFilter_cons]
  | cons b t ih =>
    rw [List.orderedInsert]
    by_cases hab : b.nearest_km ≤ a.nearest_km
    · rw [if_pos hab, keyFilter_cons]
    · rw [if_neg hab, keyFilter_cons, ih]
      simp only [keyFilter_cons]
      by_cases hav : a.nearest_km = v
      · have hbv : ¬ b.nearest_km = v := fun h => hab (le_of_eq (h.trans hav.symm))
        simp only [if_pos hav, if_neg hbv]
      · simp only [if_neg hav]

/-- Stability of the descending sort: the subsequence of any fixed key
class is untouched, i.e. candidates with equal (rounded) keys keep
their original relative order. -/
theorem keyFilter_desertRanked (v : ℝ) (l : List DesertCell) :
    keyFilter v (desertRanked l) = keyFilter v l := by
  unfold desertRanked
  induction l with
  | nil => rfl
  | cons a t ih =>
    rw [List.insertionSort, keyFilter_orderedInsert, ih, keyFilter_cons]

/-- C8, counterexample.  The claim says each desert zone is rendered as
a disk of a fixed radius strictly smaller than the 1.0 km station
buffer radius; the code renders desert zones with radius 2.0 km, which
is strictly larger. -/
theorem desert_radius_counterexample :
    ¬ (DESERT_ZONE_RADIUS_KM < BUFFER_KM) ∧ BUFFER_KM < DESERT_ZONE_RADIUS_KM := by
  constructor
  · norm_num [DESERT_ZONE_RADIUS_KM, BUFFER_KM]
  · norm_num [DESERT_ZONE_RADIUS_KM, BUFFER_KM]

/-- C8, amended: only sampled cells whose minimum planar distance to any
station is ≥ the 5 km threshold become desert candidates (each zone's
`nearest_km` is that distance rounded to 2 digits), the zones are the
candidates sorted by descending distance with at most the top 10 kept
(every kept zone dominates every dropped candidate); but the zone disk
radius is the fixed 2.0 km, which is strictly larger than — not smaller
than — the 1.0 km buffer radius. -/
theorem desert_zone_spec (S : List Station) :
    BUFFER_KM < DESERT_ZONE_RADIUS_KM ∧
      ((desertZones S).getD []).length ≤ 10 ∧
      ((desertZones S).getD []).Forall (fun z => z ∈ (desertCells S).getD []) ∧
      List.Pairwise (fun a b : DesertCell => b.nearest_km ≤ a.nearest_km)
        ((desertZones S).getD []) ∧
      ((desertCells S).getD []).Forall (fun z =>
        ∃ (b : BBox) (k0 : ℚ × ℚ) (ks : List (ℚ × ℚ)) (r c : ℕ),
          bbox S = some b ∧ stationsKm b S = k0 :: ks ∧
          r ∈ range5 (nRows b) ∧ c ∈ range5 (nCols b) ∧
          (GAP_THRESHOLD_KM : ℝ) ≤
            minSqrtDist k0 ks (cellCenter r c).1 (cellCenter r c).2 ∧
          z.nearest_km =
            pyRound 2 (minSqrtDist k0 ks (cellCenter r c).1 (cellCenter r c).2)) ∧
      ((desertZones S).getD []).Forall (fun z =>
        ((desertRanked ((desertCells S).getD [])).drop 10).Forall
          fun w => w.nearest_km ≤ z.nearest_km) := by
  have hrad : BUFFER_KM < DESERT_ZONE_RADIUS_KM := by
    norm_num [DESERT_ZONE_RADIUS_KM, BUFFER_KM]
  cases hdc : desertCells S with
  | none =>
    have hdz : desertZones S = none := by
      unfold desertZones
      rw [hdc]
      rfl
    rw [hdz]
    exact ⟨hrad, by simp, by simp [List.Forall], by simp, by simp [List.Forall],
      by simp [List.Forall]⟩
  | some cands =>
    have hdz : desertZones S = some ((desertRanked cands).take 10) := by
      unfold desertZones
      rw [hdc]
      rfl
    have hsorted := desertRanked_sorted cands
    rw [hdz]
    simp only [Option.getD_some]
    refine ⟨hrad, by simp [List.length_take], ?_, ?_, ?_, ?_⟩
    · rw [List.forall_iff_forall_mem]
      intro z hz
      have h1 : z ∈ desertRanked cands := List.mem_of_mem_take hz
      exact ((List.perm_insertionSort _ cands).mem_iff).1 h1
    · exact List.Pairwise.sublist (List.take_sublist _ _) hsorted
    · rw [List.forall_iff_forall_mem]
      intro z hz
      cases hbb : bbox S with
      | none =>
        rw [show desertCells S = none from by unfold desertCells; rw [hbb]; rfl] at hdc
        cases hdc
      | some b =>
        cases hk : stationsKm b S with
        | nil =>
          rw [show desertCells S = none from by
            unfold desertCells
            rw [hbb]
            simp only [Option.some_bind]
            rw [hk]] at hdc
          cases hdc
        | cons k0 ks =>
          have he := (desertCells_eq hbb hk).symm.trans hdc
          have he2 : desertCellsFrom b k0 ks = cands := Option.some.inj he
          obtain ⟨r, c, hr, hc, hcond, rfl⟩ := mem_desertCellsFrom.1 (he2 ▸ hz)
          exact ⟨b, k0, ks, r, c, rfl, hk, hr, hc, hcond, rfl⟩
    · rw [List.forall_iff_forall_mem]
      intro z hz
      rw [List.forall_iff_forall_mem]
      intro w hw
      exact sorted_take_drop (desertRanked cands) hsorted 10 z hz w hw

/-- C10: the isolation ranking sorts the candidates by the stored
`nearest_km`, which is the two-decimal rounded distance (an integer
number of hundredths) also reported in the output; the sort is the
stable descending sort, so candidates whose exact distances round to
the same two-decimal value keep their original (row-major sample)
relative order — formalized as the sort leaving every fixed key class
untouched. -/
theorem desert_sort_spec (S : List Station) (l : List DesertCell) :
    List.Pairwise (fun a b : DesertCell => b.nearest_km ≤ a.nearest_km) (desertRanked l) ∧
      (∀ v : ℝ, keyFilter v (desertRanked l) = keyFilter v l) ∧
      ((desertCells S).getD []).Forall (fun z => ∃ k : ℤ, z.nearest_km = (k : ℝ) / 100) := by
  refine ⟨desertRanked_sorted l, fun v => keyFilter_desertRanked v l, ?_⟩
  cases hdc : desertCells S with
  | none => simp [List.Forall]
  | some cands =>
    simp only [Option.getD_some]
    rw [List.forall_iff_forall_mem]
    intro z hz
    cases hbb : bbox S with
    | none =>
      rw [show desertCells S = none from by unfold desertCells; rw [hbb]; rfl] at hdc
      cases hdc
    | some b =>
      cases hk : stationsKm b S with
      | nil =>
        rw [show desertCells S = none from by
          unfold desertCells
          rw [hbb]
          simp only [Option.some_bind]
          rw [hk]] at hdc
        cases hdc
      | cons k0 ks =>
        have he := (desertCells_eq hbb hk).symm.trans hdc
        have he2 : desertCellsFrom b k0 ks = cands := Option.some.inj he
        obtain ⟨r, c, _, _, _, rfl⟩ := mem_desertCellsFrom.1 (he2 ▸ hz)
        obtain ⟨k, hk2⟩ :=
          pyRound_quantized 2 (minSqrtDist k0 ks (cellCenter r c).1 (cellCenter r c).2)
        refine ⟨k, ?_⟩
        rw [show (⟨b.min_lat + (cellCenter r c).1 / KM_PER_DEG_LAT,
              b.min_lng + (cellCenter r c).2 / KM_PER_DEG_LNG,
              pyRound 2 (minSqrtDist k0 ks (cellCenter r c).1 (cellCenter r c).2)⟩ :
            DesertCell).nearest_km =
            pyRound 2 (minSqrtDist k0 ks (cellCenter r c).1 (cellCenter r c).2) from rfl, hk2]
        norm_num

end SpatialAnalysis
